import Mathlib

/-!
Verification development for the dragoncurses terminal UI toolkit.

The definitions below are shallow embeddings of the Python source files
`context.py`, `input.py`, `component.py` and `loop.py`:

* pure functions become Lean functions on `List Char` / `Int` / `Nat`,
* the scheduler's mutable state becomes explicit state records,
* Python `raise` becomes `Except`,
* timestamps (Python floats compared with `<`) are modelled as rationals.

Theorems about the embedded operations follow after all definitions.
-/

/-! ## Geometry: BoundingRectangle (context.py lines 12-49) -/

/-- Axis-aligned rectangle with integer edges, as in `context.py`. -/
structure BoundingRectangle where
  top : Int
  bottom : Int
  left : Int
  right : Int
deriving DecidableEq, Repr

/-- Source: `width = right - left`. -/
def BoundingRectangle.width (r : BoundingRectangle) : Int := r.right - r.left

/-- Source: `height = bottom - top`. -/
def BoundingRectangle.height (r : BoundingRectangle) : Int := r.bottom - r.top

/-- Source: `contains(y, x)` is half-open on bottom/right. -/
def BoundingRectangle.contains (r : BoundingRectangle) (y x : Int) : Prop :=
  r.top ≤ y ∧ y < r.bottom ∧ r.left ≤ x ∧ x < r.right

instance (r : BoundingRectangle) (y x : Int) : Decidable (r.contains y x) := by
  unfold BoundingRectangle.contains
  infer_instance

/-- Source: `offset(y, x)` translates all four edges. -/
def BoundingRectangle.offset (r : BoundingRectangle) (y x : Int) : BoundingRectangle :=
  { top := r.top + y, bottom := r.bottom + y, left := r.left + x, right := r.right + x }

/-- Source: `clip(bounds)` clamps each edge of `self` into `bounds`. -/
def BoundingRectangle.clip (s bounds : BoundingRectangle) : BoundingRectangle :=
  { top := min (max s.top bounds.top) bounds.bottom
    bottom := max (min s.bottom bounds.bottom) bounds.top
    left := min (max s.left bounds.left) bounds.right
    right := max (min s.right bounds.right) bounds.left }

/-! ## Input events (input.py) -/

/-- Mouse buttons plus the `KEY` pseudo-button (input.py). -/
inductive Buttons where
  | LEFT
  | MIDDLE
  | RIGHT
  | KEY
deriving DecidableEq, Repr

/-- Scroll directions (input.py). -/
inductive Directions where
  | UP
  | DOWN
deriving DecidableEq, Repr

/-- Tagged input events (input.py): Keyboard, Mouse, Scroll, Defocus. -/
inductive InputEvent where
  | keyboard (character : String)
  | mouse (x y : Int) (button : Buttons)
  | scroll (x y : Int) (direction : Directions)
  | defocus (button : Buttons)

/-- Result of `handle_input`: either a boolean or a deferred callback
(`Union[bool, DeferredInput]` in component.py). -/
inductive HandleResult where
  | handled (b : Bool)
  | deferredCB (cb : Unit → Bool)

/-! ## Component dispatch wrapper (component.py lines 105-120) -/

/-- Embedding of `Component._handle_input`.  The component's state that the
wrapper reads is its cached `location`; its subclass behaviour is the
function `hi` (the overridable `handle_input`). -/
def handleInputWrapper (loc : Option BoundingRectangle)
    (hi : InputEvent → HandleResult) (ev : InputEvent) : HandleResult :=
  match ev with
  | .mouse x y b =>
    match loc with
    | some l =>
      if l.contains y x then hi (.mouse x y b)
      else hi (.defocus b)
    | none => .handled false
  | e => hi e

/-! ## Hotkeys (component.py lines 387-419) -/

/-- Embedding of `HotkeyableComponent.set_hotkey`: only alphanumeric keys are
accepted and the stored hotkey is lowercased.  (Python `str.isalnum` is true
for nonempty all-alphanumeric strings.) -/
def setHotkey (cur : Option String) (key : String) : Option String :=
  if key.length ≠ 0 ∧ key.toList.all Char.isAlphanum then
    some (String.mk (key.toList.map Char.toLower))
  else cur

/-- Embedding of `HotkeyableComponent.handle_input`.  `callback` is the
optional click callback attribute, `superHandle` the result of chaining to
the next behaviour (`super().handle_input(event)`). -/
def hotkeyHandleInput (hotkey : Option String) (callback : Option (Buttons → Bool))
    (superHandle : HandleResult) (ev : InputEvent) : HandleResult :=
  match hotkey with
  | some h =>
    match ev with
    | .keyboard c =>
      if c ≠ h then superHandle
      else
        match callback with
        | some f => if f Buttons.KEY then .handled (f Buttons.KEY) else superHandle
        | none => .handled true
    | _ => superHandle
  | none => superHandle

/-! ## Mouse click state machine (loop.py lines 99-103 and 239-274) -/

/-- Per-button record kept in `MainLoop.__mousestate`: pressed coordinates
and press timestamp. -/
structure MouseRecord where
  pos : Int × Int
  time : ℚ
deriving DecidableEq, Repr

/-- The full mouse state maps each button to its record. -/
def MouseState := Buttons → MouseRecord

/-- Source: the dictionary is initialised with `((-1, -1), -1)` per button. -/
def initialMouseState : MouseState := fun _ => ⟨(-1, -1), -1⟩

/-- A `BUTTONn_PRESSED` mask records `((x, y), time)` for that button. -/
def pressUpdate (st : MouseState) (b : Buttons) (x y : Int) (now : ℚ) : MouseState :=
  fun b2 => if b2 = b then ⟨(x, y), now⟩ else st b2

/-- A `BUTTONn_RELEASED` mask emits a MouseInputEvent only when the recorded
press position equals the release position and the press is less than 1.0
time unit old; the state itself is not modified by a release. -/
def releaseEvent (st : MouseState) (b : Buttons) (x y : Int) (now : ℚ) : Option InputEvent :=
  if (st b).pos = (x, y) ∧ now - (st b).time < 1 then some (.mouse x y b)
  else none

/-! ## Scheduler scene slot (loop.py lines 105-110 and 141-176) -/

/-- Scenes as seen by the scheduler: the `_ExitScene` sentinel or an
application scene (abstracted by an identifier; `change_scene` constructs
the scene object immediately, which we model by passing the constructed
value). -/
inductive Scene where
  | exitScene
  | user (id : Nat)
deriving DecidableEq, Repr

/-- The slice of `MainLoop` state that scene transitions touch.  Components
are abstracted by identifiers. -/
structure LoopState where
  scene : Option Scene
  nextScene : Option Scene
  components : List Nat
  registered : List Nat
deriving DecidableEq, Repr

/-- Source (`change_scene`): `if self.__next_scene is None: self.__next_scene = scene(...)`. -/
def MainLoop.changeScene (st : LoopState) (s : Scene) : LoopState :=
  if st.nextScene = none then { st with nextScene := some s } else st

/-- Source (`exit`): unconditionally `self.__next_scene = MainLoop._ExitScene(...)`. -/
def MainLoop.exit (st : LoopState) : LoopState :=
  { st with nextScene := some Scene.exitScene }

/-- Observable teardown effects of one scene transition: which scene had
`destroy()` called and which components had `_detach()` called. -/
structure StepLog where
  destroyedScene : Option Scene
  detached : List Nat
deriving DecidableEq, Repr

/-- Embedding of the scene-transition block at the top of `MainLoop.run`
(lines 143-176).  `create` abstracts `scene.create()` for user scenes. -/
def MainLoop.sceneStep (create : Scene → Option Nat) (st : LoopState) :
    LoopState × StepLog :=
  match st.nextScene with
  | none => (st, ⟨none, []⟩)
  | some s =>
    let detachedNow := st.registered ++ st.components
    let newComponents :=
      if s = Scene.exitScene then []
      else
        match create s with
        | some c => [c]
        | none => []
    ({ scene := if s = Scene.exitScene then none else some s
       nextScene := none
       components := newComponents
       registered := [] },
     ⟨st.scene, detachedNow⟩)

/-- The `while` condition of `MainLoop.run`:
`self.scene is not None or self.__next_scene is not None`. -/
def MainLoop.loopContinues (st : LoopState) : Prop :=
  st.scene ≠ none ∨ st.nextScene ≠ none

instance (st : LoopState) : Decidable (MainLoop.loopContinues st) := by
  unfold MainLoop.loopContinues
  infer_instance

/-! ## List layout (component.py lines 713-852) -/

/-- The two layout directions of `ListComponent` (string constants in the
source). -/
inductive ListDirection where
  | topToBottom
  | leftToRight
deriving DecidableEq, Repr

/-- Embedding of `ListComponent.__get_size` for an attached render context
(the `context is None` early return does not arise during `render`).
Python computes `int(height / n)`, i.e. truncation toward zero of the exact
quotient, which is `Int.tdiv` on integers. -/
def listGetSize (size : Option Int) (direction : ListDirection)
    (bounds : BoundingRectangle) (n : Nat) : Int :=
  let s :=
    match size with
    | none =>
      match direction with
      | .topToBottom => bounds.height.tdiv n
      | .leftToRight => bounds.width.tdiv n
    | some v => v
  if s < 1 then 1 else s

/-- The clipped rectangle allotted to the child at main-axis `offset` in
`ListComponent.render` (top-to-bottom branch: bottom clamped to the
container's bottom edge). -/
def listSlotTTB (bounds : BoundingRectangle) (size offset : Int) : BoundingRectangle :=
  { top := bounds.top + offset
    bottom := min (bounds.top + offset + size) bounds.bottom
    left := bounds.left
    right := bounds.right }

/-- Left-to-right analogue of `listSlotTTB`. -/
def listSlotLTR (bounds : BoundingRectangle) (size offset : Int) : BoundingRectangle :=
  { top := bounds.top
    bottom := bounds.bottom
    left := bounds.left + offset
    right := min (bounds.left + offset + size) bounds.right }

/-- The loop body of `ListComponent.render`: walk the children accumulating
`offset += size`, skipping (breaking) once `offset` reaches the available
extent.  Returns the bounds actually given to `_render`, in order. -/
def listSlotsAux (bounds : BoundingRectangle) (direction : ListDirection)
    (size : Int) : Nat → Int → List BoundingRectangle
  | 0, _ => []
  | count + 1, offset =>
    match direction with
    | .topToBottom =>
      if bounds.height ≤ offset then []
      else listSlotTTB bounds size offset :: listSlotsAux bounds direction size count (offset + size)
    | .leftToRight =>
      if bounds.width ≤ offset then []
      else listSlotLTR bounds size offset :: listSlotsAux bounds direction size count (offset + size)

/-- All child bounds produced by one `ListComponent.render` call with `n`
children. -/
def listSlots (bounds : BoundingRectangle) (direction : ListDirection)
    (size : Int) (n : Nat) : List BoundingRectangle :=
  listSlotsAux bounds direction size n 0

/-! ## SelectInputComponent (component.py lines 2051-2176) -/

/-- Keyboard pseudo-characters used by `SelectInputComponent.handle_input`. -/
def Keys.LEFT : String := "KEY_LEFT"

/-- Right-arrow key code. -/
def Keys.RIGHT : String := "KEY_RIGHT"

/-- The state of a `SelectInputComponent` that selection transitions touch. -/
structure SelectInput where
  selected : String
  options : List String
deriving DecidableEq, Repr

/-- Embedding of `SelectInputComponent.__init__`: the constructor raises
unless the initial selection is one of the options (fields are assigned
before the check, but a raising constructor never yields an object). -/
def SelectInput.init (selected : String) (options : List String) :
    Except String SelectInput :=
  if selected ∈ options then .ok ⟨selected, options⟩
  else .error "Selected value must be in options!"

/-- Embedding of the `selected` property setter, which raises for values not
in `options`. -/
def SelectInput.setSelected (st : SelectInput) (v : String) :
    Except String SelectInput :=
  if v ∈ st.options then .ok { st with selected := v }
  else .error "Selected value must be in options!"

/-- Embedding of the local `select_previous`: find the first option equal to
the current selection; if it is not the first, move to the one before it. -/
def SelectInput.selectPrevious (st : SelectInput) : SelectInput :=
  match st.options.findIdx? (fun o => o == st.selected) with
  | some i =>
    if 0 < i then { st with selected := (st.options.get? (i - 1)).getD st.selected }
    else st
  | none => st

/-- Embedding of the local `select_next`: find the first option equal to the
current selection; if it is not the last, move to the one after it. -/
def SelectInput.selectNext (st : SelectInput) : SelectInput :=
  match st.options.findIdx? (fun o => o == st.selected) with
  | some i =>
    if i < st.options.length - 1 then
      { st with selected := (st.options.get? (i + 1)).getD st.selected }
    else st
  | none => st

/-- Embedding of `SelectInputComponent.handle_input`: keyboard left/right
move the selection when focused; a left-button mouse event with a cached
location moves the selection when it hits the left or right arrow cell and
is swallowed either way; everything else is unhandled. -/
def SelectInput.handleInput (st : SelectInput) (focused : Bool)
    (loc : Option BoundingRectangle) (ev : InputEvent) : SelectInput × Bool :=
  match ev with
  | .keyboard c =>
    if focused then
      if c = Keys.LEFT then (st.selectPrevious, true)
      else if c = Keys.RIGHT then (st.selectNext, true)
      else (st, false)
    else (st, false)
  | .mouse x y b =>
    match loc with
    | some l =>
      if b = Buttons.LEFT then
        let relx := x - l.left
        let rely := y - l.top
        if rely = 0 ∧ relx = 0 then (st.selectPrevious, true)
        else if rely = 0 ∧ relx = l.width - 1 then (st.selectNext, true)
        else (st, true)
      else (st, false)
    | none => (st, false)
  | _ => (st, false)

/-! ## Formatted strings (context.py lines 282-310 and 456-469) -/

/-- Embedding of the accumulator loop of
`RenderContext.__split_formatted_string`.  The accumulator is flushed on a
`<`, and on a `>` the accumulated part is flushed only when it started with
`<`. -/
def splitAux (acc : List Char) : List Char → List (List Char)
  | [] => if acc.isEmpty then [] else [acc]
  | ch :: rest =>
    if ch = '<' then
      (if acc.isEmpty then [] else [acc]) ++ splitAux ['<'] rest
    else if ch = '>' then
      let acc2 := acc ++ ['>']
      if acc2.head? = some '<' then acc2 :: splitAux [] rest
      else splitAux acc2 rest
    else splitAux (acc ++ [ch]) rest

/-- Source entry point: split with an empty accumulator. -/
def splitFormattedString (s : List Char) : List (List Char) :=
  splitAux [] s

/-- One pass of Python `str.replace(pat, rep)`: leftmost non-overlapping
occurrences, scanning left to right.  Structural on `fuel`; `replaceList`
supplies `fuel = s.length`, which suffices for nonempty patterns because
every step consumes at least one input character. -/
def replaceAux (pat rep : List Char) : Nat → List Char → List Char
  | 0, s => s
  | _ + 1, [] => []
  | fuel + 1, c :: rest =>
    if pat.isPrefixOf (c :: rest) then rep ++ replaceAux pat rep fuel ((c :: rest).drop pat.length)
    else c :: replaceAux pat rep fuel rest

/-- Python `s.replace(pat, rep)` for a nonempty pattern. -/
def replaceList (pat rep s : List Char) : List Char :=
  replaceAux pat rep s.length s

/-- Embedding of `RenderContext.__sanitize`: `&lt;`, then `&gt;`, then
`&amp;` are replaced, in that order. -/
def sanitizeList (s : List Char) : List Char :=
  replaceList "&amp;".toList "&".toList
    (replaceList "&gt;".toList ">".toList
      (replaceList "&lt;".toList "<".toList s))

/-- Source test `part[:1] == "<" and part[-1:] == ">"` deciding whether a
part is a markup tag. -/
def isTagPart (part : List Char) : Bool :=
  part.head? == some '<' && part.getLast? == some '>'

/-- Total length contribution of a list of parts in
`RenderContext.formatted_string_length`. -/
def partsLength (parts : List (List Char)) : Nat :=
  (parts.map (fun part => if isTagPart part then 0 else (sanitizeList part).length)).sum

/-- Embedding of `RenderContext.formatted_string_length`. -/
def formattedStringLength (s : List Char) : Nat :=
  partsLength (splitFormattedString s)

/-! ### Spec-side markup grammar for C8

The claim speaks of "a markup string" made of tags, escapes and plain
characters.  The following token grammar captures exactly that; the claim's
theorem relates the source function above to counting over this grammar. -/

/-- A markup token: a complete `<...>` tag, a plain visible character, or
one of the three escape sequences. -/
inductive MarkupTok where
  | tag (inner : List Char)
  | lit (c : Char)
  | escLt
  | escGt
  | escAmp
deriving DecidableEq, Repr

/-- Rendering a token back to source text. -/
def MarkupTok.render : MarkupTok → List Char
  | .tag inner => '<' :: (inner ++ ['>'])
  | .lit c => [c]
  | .escLt => ['&', 'l', 't', ';']
  | .escGt => ['&', 'g', 't', ';']
  | .escAmp => ['&', 'a', 'm', 'p', ';']

/-- The number of visible characters a token stands for: tags contribute 0,
every other token 1. -/
def MarkupTok.visibleLen : MarkupTok → Nat
  | .tag _ => 0
  | _ => 1

/-- The single visible character a non-tag token denotes after escape
normalisation (unused for tags). -/
def MarkupTok.visChar : MarkupTok → Char
  | .tag _ => ' '
  | .lit c => c
  | .escLt => '<'
  | .escGt => '>'
  | .escAmp => '&'

/-- Well-formedness: tag bodies contain no angle brackets, plain characters
are none of the three special characters. -/
def MarkupTok.wf : MarkupTok → Prop
  | .tag inner => ∀ c ∈ inner, c ≠ '<' ∧ c ≠ '>'
  | .lit c => c ≠ '<' ∧ c ≠ '>' ∧ c ≠ '&'
  | _ => True

instance : DecidablePred MarkupTok.wf := by
  intro t
  cases t <;> (unfold MarkupTok.wf; infer_instance)

/-- A token is textual when it is not a tag. -/
def MarkupTok.isText : MarkupTok → Prop
  | .tag _ => False
  | _ => True

instance : DecidablePred MarkupTok.isText := by
  intro t
  cases t <;> (unfold MarkupTok.isText; infer_instance)

/-- Rendering a token list. -/
def renderMarkup (toks : List MarkupTok) : List Char :=
  (toks.map MarkupTok.render).flatten

/-- Spec-side count of visible characters of a markup token list. -/
def visibleLength (toks : List MarkupTok) : Nat :=
  (toks.map MarkupTok.visibleLen).sum

/-! ## Word wrap (context.py lines 152-280) -/

/-- The whitespace characters the wrap scanner reacts to
(`string[i] in [" ", "\t"]`). -/
def isSpaceTab (c : Char) : Bool :=
  c == ' ' || c == '\t'

/-- Embedding of the inner `for j in range(i, len(string))` search in
`__get_wrap_points`: the first index at or after `i` holding a non-space
character, or `none` when spacing runs to the end of the string. -/
def findNonSpace (s : List Char) (i : Nat) : Option Nat :=
  match (s.drop i).findIdx? (fun c => !isSpaceTab c) with
  | some k => some (i + k)
  | none => none

/-- Embedding of the wrap-point scan (`while i < maxiter` in
`__get_wrap_points`), accumulating the `possibilities` list.  The scan
index strictly increases each iteration, so `fuel = maxiter + 1` always
suffices; the fuel argument only makes the recursion structural. -/
def scanPossAux (s : List Char) (W maxiter : Nat) : Nat → Nat → List Nat → List Nat
  | 0, _, acc => acc
  | fuel + 1, i, acc =>
    if i < maxiter then
      match s.get? i with
      | none => acc
      | some c =>
        if c = '\n' then acc ++ [i + 1]
        else if c = ' ' ∨ c = '\t' then
          match findNonSpace s i with
          | some j => scanPossAux s W maxiter fuel j (acc ++ [j])
          | none => acc
        else if c = '-' ∧ i < W then
          if 0 < i ∧ i + 1 < s.length ∧
              Option.any Char.isAlphanum (s.get? (i - 1)) ∧
              Option.any Char.isAlphanum (s.get? (i + 1)) then
            scanPossAux s W maxiter fuel (i + 1) (acc ++ [i + 1])
          else scanPossAux s W maxiter fuel (i + 1) acc
        else scanPossAux s W maxiter fuel (i + 1) acc
    else acc

/-- All wrap possibilities for the current chunk:
`maxiter = min(len(string), width + 1)` as in the source. -/
def scanPoss (s : List Char) (W : Nat) : List Nat :=
  scanPossAux s W (min s.length (W + 1)) (min s.length (W + 1) + 1) 0 []

/-- Embedding of the base-case loop of `__get_wrap_points`: for every
newline at index `i` of the remaining string, record `processed + i + 1`. -/
def newlinePoints : List Char → Nat → List Nat
  | [], _ => []
  | c :: rest, base =>
    (if c = '\n' then [base + 1] else []) ++ newlinePoints rest (base + 1)

/-- Embedding of the outer `while string` loop of `__get_wrap_points`,
specialised to a draw starting at the left column (`starty = 0`), where
both branches of `width = bounds.width if locations else (bounds.width -
starty)` give the same width `W`.  Each iteration consumes at least one
character when `W ≥ 1`, so `fuel = length + 1` suffices (Python diverges
for width 0; the embedding is only used with `0 < W`). -/
def wrapAux (W : Nat) : Nat → List Char → Nat → List Nat → List Nat
  | 0, _, _, acc => acc
  | fuel + 1, s, processed, acc =>
    if s.isEmpty then acc
    else if s.length ≤ W then acc ++ newlinePoints s processed
    else
      match (scanPoss s W).getLast? with
      | some last => wrapAux W fuel (s.drop last) (processed + last) (acc ++ [processed + last])
      | none => wrapAux W fuel (s.drop W) (processed + W) (acc ++ [processed + W])

/-- Embedding of `RenderContext.__get_wrap_points(string, 0, 0, bounds)` for
a bounds rectangle of width `W`. -/
def getWrapPoints (s : List Char) (W : Nat) : List Nat :=
  wrapAux W (s.length + 1) s 0 []

/-- Embedding of the hanging wrap point added by `draw_string`: append
`len(string)` unless it is already the last wrap point. -/
def withHanging (locs : List Nat) (len : Nat) : List Nat :=
  if locs = [] ∨ locs.getLast? ≠ some len then locs ++ [len] else locs

/-- Embedding of the chunk slicing of `draw_string`:
`chunk = string[last_pos:wrap_point]` for each wrap point in order. -/
def chunksAux (s : List Char) : Nat → List Nat → List (List Char)
  | _, [] => []
  | lastPos, p :: rest => ((s.take p).drop lastPos) :: chunksAux s p rest

/-- The segments `draw_string(0, 0, string, wrap=True)` paints, one per
line, for a surface of width `W`.  (`draw_string` replaces `"\n"` with
`" "` before slicing, which changes neither positions nor lengths; the
slices are taken of the original string here.) -/
def drawStringChunks (s : List Char) (W : Nat) : List (List Char) :=
  chunksAux s 0 (withHanging (getWrapPoints s W) s.length)

/-- Trailing whitespace for the amended width bound: the blanks the wrapper
may leave at the end of a segment (wrapped space runs, tabs, the newline of
a hard newline break; `draw_string` itself renders `\n` as a space). -/
def isTrailWS (c : Char) : Bool :=
  c == ' ' || c == '\t' || c == '\n'

/-- Length of a segment after discarding trailing whitespace. -/
def rstripLen (l : List Char) : Nat :=
  (l.reverse.dropWhile isTrailWS).length

/-- Whitespace-separated tokens of a string (spec-side notion used by the
claim's "a single token longer than W" exception): maximal runs of
non-whitespace characters. -/
def wordTokensAux (cur : List Char) : List Char → List (List Char)
  | [] => if cur.isEmpty then [] else [cur]
  | c :: rest =>
    if isSpaceTab c || c == '\n' then
      (if cur.isEmpty then [] else [cur]) ++ wordTokensAux [] rest
    else wordTokensAux (cur ++ [c]) rest

/-- All whitespace-separated tokens of `s`. -/
def wordTokens (s : List Char) : List (List Char) :=
  wordTokensAux [] s

/-! ## Proof-side definitions

Auxiliary functions used only to state and prove the theorems below: the
expected part structure of a rendered markup string, the per-stage images
of escape normalisation, and the wrap-segment predicates. -/

/-- Flatten a token list through a per-token rendering function. -/
def textFlat (f : MarkupTok → List Char) (us : List MarkupTok) : List Char :=
  (us.map f).flatten

/-- Image of a token after the first sanitize pass (`&lt;` → `<`). -/
def tokRender1 : MarkupTok → List Char
  | .tag _ => []
  | .lit c => [c]
  | .escLt => ['<']
  | .escGt => ['&', 'g', 't', ';']
  | .escAmp => ['&', 'a', 'm', 'p', ';']

/-- Image of a token after the second sanitize pass (`&gt;` → `>`). -/
def tokRender2 : MarkupTok → List Char
  | .tag _ => []
  | .lit c => [c]
  | .escLt => ['<']
  | .escGt => ['>']
  | .escAmp => ['&', 'a', 'm', 'p', ';']

/-- Image of a token after the third sanitize pass (`&amp;` → `&`): the
single visible character. -/
def tokRender3 : MarkupTok → List Char
  | .tag _ => []
  | t => [t.visChar]

/-- The parts that splitting a rendered token list must produce: maximal
text runs become single parts, every tag becomes its own part. -/
def markupPartsAux (acc : List Char) : List MarkupTok → List (List Char)
  | [] => if acc.isEmpty then [] else [acc]
  | .tag t :: rest =>
    (if acc.isEmpty then [] else [acc]) ++
      (('<' :: (t ++ ['>'])) :: markupPartsAux [] rest)
  | tok :: rest => markupPartsAux (acc ++ tok.render) rest

/-- The wrap-segment width bound of the amended C1, expressed over the wrap
points of one chunking pass: every slice between consecutive points (and
the final slice) has at most `W` characters once trailing whitespace is
discarded. -/
def GapsOK (s : List Char) (W : Nat) : Nat → List Nat → Prop
  | a, [] => rstripLen (s.drop a) ≤ W
  | a, p :: ps => rstripLen ((s.take p).drop a) ≤ W ∧ GapsOK s W p ps


/-! ## Theorems -/

/-! ### C2: clip produces nonnegative dimensions -/

/-- C2 (counterexample): quantified over all rectangles with no
well-formedness precondition, the claim is false: a rectangle whose own
`left` exceeds its `right` clips to a rectangle of negative width. -/
theorem clip_claim_counterexample :
    ((BoundingRectangle.mk 0 0 5 0).clip (BoundingRectangle.mk 0 0 0 10)).width < 0 := by
  decide

/-- C2 (amended): for every rectangle `A` with nonnegative width and height
and every rectangle `B` (well-formed or not), `A.clip(B)` has nonnegative
width and height. -/
theorem clip_nonneg_of_nonneg_self (A B : BoundingRectangle)
    (hw : 0 ≤ A.width) (hh : 0 ≤ A.height) :
    0 ≤ (A.clip B).width ∧ 0 ≤ (A.clip B).height := by
  unfold BoundingRectangle.clip BoundingRectangle.width BoundingRectangle.height at *
  dsimp only
  omega

/-- C2 witness: the amended theorem applied at concrete rectangles. -/
theorem clip_nonneg_of_nonneg_self_witness :
    0 ≤ ((BoundingRectangle.mk 0 5 0 7).clip (BoundingRectangle.mk 1 3 2 4)).width ∧
    0 ≤ ((BoundingRectangle.mk 0 5 0 7).clip (BoundingRectangle.mk 1 3 2 4)).height :=
  clip_nonneg_of_nonneg_self _ _ (by decide) (by decide)

/-! ### C3: the mouse click state machine -/

/-- C3: a release is promoted to a Mouse event exactly when it happens at
the recorded press coordinates and strictly less than 1.0 time unit after
the recorded press; in particular pressing LEFT at (3,4) and releasing at
(3,4) 0.2 units later yields a click, releasing 1.5 units later yields
nothing, and releasing at (5,4) 0.2 units later yields nothing. -/
theorem mouse_click_promotion :
    (∀ (st : MouseState) (b : Buttons) (x y : Int) (now : ℚ) (ev : InputEvent),
      releaseEvent st b x y now = some ev ↔
        ((st b).pos = (x, y) ∧ now - (st b).time < 1 ∧ ev = InputEvent.mouse x y b)) ∧
    (∀ t0 : ℚ,
      releaseEvent (pressUpdate initialMouseState Buttons.LEFT 3 4 t0) Buttons.LEFT 3 4
          (t0 + 0.2) = some (InputEvent.mouse 3 4 Buttons.LEFT) ∧
      releaseEvent (pressUpdate initialMouseState Buttons.LEFT 3 4 t0) Buttons.LEFT 3 4
          (t0 + 1.5) = none ∧
      releaseEvent (pressUpdate initialMouseState Buttons.LEFT 3 4 t0) Buttons.LEFT 5 4
          (t0 + 0.2) = none) := by
  constructor
  · intro st b x y now ev
    unfold releaseEvent
    split_ifs with h
    · constructor
      · intro hsome
        exact ⟨h.1, h.2, (Option.some_inj.mp hsome).symm⟩
      · intro ⟨_, _, hev⟩
        rw [hev]
    · constructor
      · intro hnone
        exact absurd hnone (by simp)
      · intro ⟨h1, h2, _⟩
        exact absurd ⟨h1, h2⟩ h
  · intro t0
    have hb : pressUpdate initialMouseState Buttons.LEFT 3 4 t0 Buttons.LEFT =
        ⟨(3, 4), t0⟩ := by
      unfold pressUpdate
      rw [if_pos rfl]
    refine ⟨?_, ?_, ?_⟩
    · unfold releaseEvent
      rw [hb]
      rw [if_pos]
      exact ⟨rfl, by norm_num⟩
    · unfold releaseEvent
      rw [hb]
      rw [if_neg]
      intro ⟨_, habs⟩
      simp only at habs
      norm_num at habs
    · unfold releaseEvent
      rw [hb]
      rw [if_neg]
      intro ⟨habs, _⟩
      simp only [Prod.mk.injEq] at habs
      norm_num at habs

/-! ### C4: the `_handle_input` dispatch wrapper -/

/-- C4: with a cached location, a Mouse event inside the location is
forwarded unchanged, a Mouse event outside it is turned into a Defocus
event with the same button, and every non-mouse event is forwarded
unconditionally. -/
theorem handle_input_wrapper_routing (l : BoundingRectangle)
    (loc : Option BoundingRectangle) (hi : InputEvent → HandleResult)
    (x y : Int) (b b2 : Buttons) (c : String) (sx sy : Int) (d : Directions) :
    (l.contains y x →
      handleInputWrapper (some l) hi (.mouse x y b) = hi (.mouse x y b)) ∧
    (¬ l.contains y x →
      handleInputWrapper (some l) hi (.mouse x y b) = hi (.defocus b)) ∧
    handleInputWrapper loc hi (.keyboard c) = hi (.keyboard c) ∧
    handleInputWrapper loc hi (.scroll sx sy d) = hi (.scroll sx sy d) ∧
    handleInputWrapper loc hi (.defocus b2) = hi (.defocus b2) := by
  refine ⟨?_, ?_, rfl, rfl, rfl⟩
  · intro h
    show (if l.contains y x then hi (InputEvent.mouse x y b)
        else hi (InputEvent.defocus b)) = hi (InputEvent.mouse x y b)
    rw [if_pos h]
  · intro h
    show (if l.contains y x then hi (InputEvent.mouse x y b)
        else hi (InputEvent.defocus b)) = hi (InputEvent.defocus b)
    rw [if_neg h]

/-- C4 witness: the routing theorem applied at a concrete location, handler
and pair of events (one hit, one miss). -/
theorem handle_input_wrapper_routing_witness :
    handleInputWrapper (some (BoundingRectangle.mk 0 10 0 10))
        (fun _ => HandleResult.handled true) (.mouse 2 3 Buttons.LEFT) =
      (fun _ => HandleResult.handled true) (InputEvent.mouse 2 3 Buttons.LEFT) ∧
    handleInputWrapper (some (BoundingRectangle.mk 0 10 0 10))
        (fun _ => HandleResult.handled true) (.mouse 20 3 Buttons.LEFT) =
      (fun _ => HandleResult.handled true) (InputEvent.defocus Buttons.LEFT) := by
  have h := handle_input_wrapper_routing (BoundingRectangle.mk 0 10 0 10) none
    (fun _ => HandleResult.handled true) 2 3 Buttons.LEFT Buttons.LEFT "x" 0 0 Directions.UP
  have h2 := handle_input_wrapper_routing (BoundingRectangle.mk 0 10 0 10) none
    (fun _ => HandleResult.handled true) 20 3 Buttons.LEFT Buttons.LEFT "x" 0 0 Directions.UP
  exact ⟨h.1 (by decide), h2.2.1 (by decide)⟩

/-! ### C7: re-entrant scene change keeps the first request -/

/-- C7: when a next-scene request is already pending, `change_scene` is a
no-op, so a second call before the next cycle leaves the pending request of
the first call unchanged. -/
theorem change_scene_idempotent_guard (st : LoopState) (s0 s1 s2 : Scene) :
    MainLoop.changeScene { st with nextScene := some s0 } s1 =
      { st with nextScene := some s0 } ∧
    MainLoop.changeScene (MainLoop.changeScene st s1) s2 =
      MainLoop.changeScene st s1 := by
  constructor
  · simp [MainLoop.changeScene]
  · cases h : st.nextScene <;> simp [MainLoop.changeScene, h]

/-! ### C9: exit overwrites the pending scene and terminates the loop -/

/-- C9: `exit` unconditionally overwrites the pending next-scene slot with
the exit sentinel; at the next scene-transition step the current scene is
destroyed, every component (registered overlays and base components) is
detached, the state empties, and the run loop's `while` condition becomes
false — regardless of any pending `change_scene` request. -/
theorem exit_overrides_and_terminates (create : Scene → Option Nat) (st : LoopState) :
    (MainLoop.exit st).nextScene = some Scene.exitScene ∧
    (MainLoop.sceneStep create (MainLoop.exit st)).1.scene = none ∧
    (MainLoop.sceneStep create (MainLoop.exit st)).1.components = [] ∧
    (MainLoop.sceneStep create (MainLoop.exit st)).1.registered = [] ∧
    (MainLoop.sceneStep create (MainLoop.exit st)).1.nextScene = none ∧
    ¬ MainLoop.loopContinues (MainLoop.sceneStep create (MainLoop.exit st)).1 ∧
    (MainLoop.sceneStep create (MainLoop.exit st)).2.destroyedScene = st.scene ∧
    (MainLoop.sceneStep create (MainLoop.exit st)).2.detached =
      st.registered ++ st.components := by
  refine ⟨rfl, rfl, rfl, rfl, rfl, ?_, rfl, rfl⟩
  intro hcont
  rcases hcont with h | h <;> exact h rfl

/-! ### C5: hotkey matching -/

/-- C5 (counterexample): the claim says matching is case-insensitive, so
that the uppercase form of the stored hotkey triggers the behaviour.  In
the code `event.character != self.hotkey` is an exact comparison against
the lowercased stored key: configuring hotkey "A" stores "a", and a
keyboard event "A" is chained onward (`super().handle_input`), not
triggered — even with a callback that would report handled. -/
theorem hotkey_case_insensitive_counterexample :
    hotkeyHandleInput (setHotkey none "A") (some (fun _ => true))
        (HandleResult.handled false) (.keyboard "A") = HandleResult.handled false ∧
    hotkeyHandleInput (setHotkey none "A") (some (fun _ => true))
        (HandleResult.handled false) (.keyboard "A") ≠ HandleResult.handled true := by
  constructor
  · rfl
  · intro h
    rw [show hotkeyHandleInput (setHotkey none "A") (some (fun _ => true))
        (HandleResult.handled false) (.keyboard "A") = HandleResult.handled false from rfl] at h
    injection h with h2
    exact absurd h2 (by decide)

/-- C5 (amended): `set_hotkey` stores the lowercased form of an
alphanumeric key, and a Keyboard event triggers the hotkey behaviour
exactly when its character equals that stored (lowercased) hotkey: then the
callback is invoked with the `KEY` pseudo-button (the event counting as
handled when the callback is absent or returns true), while any other
Keyboard event — including the uppercase form of the stored hotkey when it
differs — is chained onward to the next behaviour. -/
theorem hotkey_exact_match_only (cur : Option String) (k h c : String)
    (f : Buttons → Bool) (cb : Option (Buttons → Bool)) (sup : HandleResult) :
    (k.length ≠ 0 → k.toList.all Char.isAlphanum = true →
      setHotkey cur k = some (String.mk (k.toList.map Char.toLower))) ∧
    (hotkeyHandleInput (some h) (some f) sup (.keyboard h) =
      if f Buttons.KEY then HandleResult.handled true else sup) ∧
    (hotkeyHandleInput (some h) none sup (.keyboard h) = HandleResult.handled true) ∧
    (c ≠ h → hotkeyHandleInput (some h) cb sup (.keyboard c) = sup) := by
  refine ⟨?_, ?_, ?_, ?_⟩
  · intro h1 h2
    unfold setHotkey
    rw [if_pos ⟨h1, h2⟩]
  · show (if h ≠ h then sup
        else if f Buttons.KEY then HandleResult.handled (f Buttons.KEY) else sup) = _
    rw [if_neg (by simp)]
    by_cases hf : f Buttons.KEY
    · rw [if_pos hf, if_pos hf, hf]
    · rw [if_neg hf, if_neg hf]
  · show (if h ≠ h then sup else HandleResult.handled true) = _
    rw [if_neg (by simp)]
  · intro hne
    cases cb
    · show (if c ≠ h then sup else HandleResult.handled true) = sup
      rw [if_pos hne]
    · show (if c ≠ h then sup else _) = sup
      rw [if_pos hne]

/-- C5 witness: the amended theorem applied to the configured key "A",
whose stored form is "a"; the lowercase event triggers, and the original
uppercase form does not. -/
theorem hotkey_exact_match_only_witness :
    setHotkey none "A" = some "a" ∧
    hotkeyHandleInput (some "a") none (HandleResult.handled false) (.keyboard "a") =
      HandleResult.handled true ∧
    hotkeyHandleInput (some "a") none (HandleResult.handled false) (.keyboard "A") =
      HandleResult.handled false := by
  have h := hotkey_exact_match_only none "A" "a" "A" (fun _ => true) none
    (HandleResult.handled false)
  refine ⟨?_, h.2.2.1, h.2.2.2 (by decide)⟩
  have h1 := h.1 (by decide) (by decide)
  rw [h1]
  decide

/-! ### C6: list layout division -/

/-- C6: with direction top-to-bottom and no fixed per-item size, the
allotted main-axis extent is `max 1 ⌊height / count⌋`; with 3 children and
container height 9 each child gets height 3 at offsets 0, 3, 6; and a child
whose offset reaches or exceeds the available extent receives no slot. -/
theorem list_layout_division :
    (∀ (bounds : BoundingRectangle) (n : Nat), 0 < n → 0 ≤ bounds.height →
      listGetSize none ListDirection.topToBottom bounds n =
        max 1 ((bounds.height.toNat / n : Nat) : Int)) ∧
    (listGetSize none ListDirection.topToBottom (BoundingRectangle.mk 0 9 0 20) 3 = 3 ∧
      listSlots (BoundingRectangle.mk 0 9 0 20) ListDirection.topToBottom 3 3 =
        [BoundingRectangle.mk 0 3 0 20, BoundingRectangle.mk 3 6 0 20,
          BoundingRectangle.mk 6 9 0 20]) ∧
    (∀ (bounds : BoundingRectangle) (size : Int) (n k : Nat), 0 < size →
      bounds.height ≤ (k : Int) * size →
      (listSlots bounds ListDirection.topToBottom size n)[k]? = none) := by
  refine ⟨?_, ⟨by decide, by decide⟩, ?_⟩
  · intro bounds n hn hh
    obtain ⟨m, hm⟩ : ∃ m : Nat, bounds.height = (m : Int) :=
      ⟨bounds.height.toNat, (Int.toNat_of_nonneg hh).symm⟩
    unfold listGetSize
    rw [hm]
    have htd : (m : Int).tdiv (n : Int) = ((m / n : Nat) : Int) := by
      rfl
    simp only [htd, hm, Int.toNat_natCast]
    omega
  · intro bounds size n k hsize hk
    have key : ∀ (count : Nat) (offset : Int) (k : Nat),
        bounds.height ≤ offset + (k : Int) * size →
        (listSlotsAux bounds ListDirection.topToBottom size count offset)[k]? = none := by
      intro count
      induction count with
      | zero => intro offset k _; simp [listSlotsAux]
      | succ c ih =>
        intro offset k hle
        unfold listSlotsAux
        by_cases hoff : bounds.height ≤ offset
        · rw [if_pos hoff]
          simp
        · rw [if_neg hoff]
          push_neg at hoff
          match k with
          | 0 =>
            exfalso
            simp only [Nat.cast_zero, zero_mul, add_zero] at hle
            omega
          | k + 1 =>
            simp only [List.getElem?_cons_succ]
            apply ih
            have harith : offset + ((k : Int) + 1) * size = (offset + size) + (k : Int) * size := by
              ring
            have hcast : ((k + 1 : Nat) : Int) = (k : Int) + 1 := by push_cast; ring
            rw [hcast, harith] at hle
            exact hle
    have h0 : bounds.height ≤ 0 + (k : Int) * size := by omega
    exact key n 0 k h0

/-- C6 witness: the layout theorem applied at the concrete 3-children,
height-9 container, including the skip of an out-of-extent child. -/
theorem list_layout_division_witness :
    listGetSize none ListDirection.topToBottom (BoundingRectangle.mk 0 9 0 20) 3 =
      max 1 (((BoundingRectangle.mk 0 9 0 20).height.toNat / 3 : Nat) : Int) ∧
    (listSlots (BoundingRectangle.mk 0 9 0 20) ListDirection.topToBottom 3 3)[3]? = none := by
  refine ⟨list_layout_division.1 (BoundingRectangle.mk 0 9 0 20) 3 (by decide) (by decide), ?_⟩
  exact list_layout_division.2.2 (BoundingRectangle.mk 0 9 0 20) 3 3 3 (by decide) (by decide)

/-! ### C10: SelectInputComponent keeps its selection inside its options -/

/-- Helper: a successful `findIdx?` search starting at `i` returns an index
at or after `i` and within the list. -/
theorem findIdx?_some_bounds {α : Type} (p : α → Bool) :
    ∀ (l : List α) (i j : Nat), List.findIdx? p l i = some j →
      i ≤ j ∧ j - i < l.length := by
  intro l
  induction l with
  | nil => intro i j h; rw [List.findIdx?_nil] at h; exact absurd h (by simp)
  | cons x xs ih =>
    intro i j h
    rw [List.findIdx?_cons] at h
    by_cases hp : p x = true
    · rw [if_pos hp] at h
      obtain rfl : i = j := Option.some_inj.mp h
      constructor
      · exact le_refl i
      · simp
    · rw [if_neg hp] at h
      obtain ⟨h1, h2⟩ := ih (i + 1) j h
      constructor
      · omega
      · simp only [List.length_cons]
        omega

/-- Helper: a successful `findIdx?` search finds an element satisfying the
predicate at the found index (relative to the start index). -/
theorem findIdx?_some_get {α : Type} (p : α → Bool) :
    ∀ (l : List α) (i j : Nat), List.findIdx? p l i = some j →
      ∃ a, l.get? (j - i) = some a ∧ p a = true := by
  intro l
  induction l with
  | nil => intro i j h; rw [List.findIdx?_nil] at h; exact absurd h (by simp)
  | cons x xs ih =>
    intro i j h
    rw [List.findIdx?_cons] at h
    by_cases hp : p x = true
    · rw [if_pos hp] at h
      obtain rfl : i = j := Option.some_inj.mp h
      exact ⟨x, by simp, hp⟩
    · rw [if_neg hp] at h
      obtain ⟨a, ha, hpa⟩ := ih (i + 1) j h
      have hij : i + 1 ≤ j := (findIdx?_some_bounds p xs (i + 1) j h).1
      refine ⟨a, ?_, hpa⟩
      have : j - i = (j - (i + 1)) + 1 := by omega
      rw [this, List.get?_cons_succ]
      exact ha

/-- Helper: all elements strictly before a successful `findIdx?` hit fail
the predicate. -/
theorem findIdx?_some_before {α : Type} (p : α → Bool) :
    ∀ (l : List α) (i j : Nat), List.findIdx? p l i = some j →
      ∀ m, m < j - i → ∃ a, l.get? m = some a ∧ p a = false := by
  intro l
  induction l with
  | nil => intro i j h; rw [List.findIdx?_nil] at h; exact absurd h (by simp)
  | cons x xs ih =>
    intro i j h m hm
    rw [List.findIdx?_cons] at h
    by_cases hp : p x = true
    · rw [if_pos hp] at h
      obtain rfl : i = j := Option.some_inj.mp h
      omega
    · rw [if_neg hp] at h
      match m with
      | 0 => exact ⟨x, rfl, by simp [hp]⟩
      | m + 1 =>
        have hij : i + 1 ≤ j := (findIdx?_some_bounds p xs (i + 1) j h).1
        obtain ⟨a, ha, hpa⟩ := ih (i + 1) j h m (by omega)
        exact ⟨a, by rw [List.get?_cons_succ]; exact ha, hpa⟩

/-- Helper: `select_next` never touches the option list. -/
theorem selectNext_options (st : SelectInput) :
    (st.selectNext).options = st.options := by
  unfold SelectInput.selectNext
  cases hf : st.options.findIdx? (fun o => o == st.selected) with
  | none => rfl
  | some i =>
    by_cases hi : i < st.options.length - 1
    · simp [hi]
    · simp [hi]

/-- Helper: `select_previous` never touches the option list. -/
theorem selectPrevious_options (st : SelectInput) :
    (st.selectPrevious).options = st.options := by
  unfold SelectInput.selectPrevious
  cases hf : st.options.findIdx? (fun o => o == st.selected) with
  | none => rfl
  | some i =>
    by_cases hi : 0 < i
    · simp [hi]
    · simp [hi]

/-- Helper: `select_next` preserves membership of the selection. -/
theorem selectNext_mem (st : SelectInput) (h : st.selected ∈ st.options) :
    (st.selectNext).selected ∈ st.options := by
  unfold SelectInput.selectNext
  cases hf : st.options.findIdx? (fun o => o == st.selected) with
  | none => exact h
  | some i =>
    by_cases hi : i < st.options.length - 1
    · simp only [hi, if_pos]
      cases hg : st.options.get? (i + 1) with
      | none => simpa [hg] using h
      | some v =>
        simp only [hg, Option.getD_some]
        exact List.get?_mem hg
    · simp only [hi, if_neg]
      exact h

/-- Helper: `select_previous` preserves membership of the selection. -/
theorem selectPrevious_mem (st : SelectInput) (h : st.selected ∈ st.options) :
    (st.selectPrevious).selected ∈ st.options := by
  unfold SelectInput.selectPrevious
  cases hf : st.options.findIdx? (fun o => o == st.selected) with
  | none => exact h
  | some i =>
    by_cases hi : 0 < i
    · simp only [hi, if_pos]
      cases hg : st.options.get? (i - 1) with
      | none => simpa [hg] using h
      | some v =>
        simp only [hg, Option.getD_some]
        exact List.get?_mem hg
    · simp only [hi, if_neg]
      exact h

/-- Helper: every `handle_input` transition of a `SelectInputComponent` is
the identity, `select_previous`, or `select_next`. -/
theorem handleInput_cases (st : SelectInput) (focused : Bool)
    (loc : Option BoundingRectangle) (ev : InputEvent) :
    (st.handleInput focused loc ev).1 = st ∨
    (st.handleInput focused loc ev).1 = st.selectPrevious ∨
    (st.handleInput focused loc ev).1 = st.selectNext := by
  cases ev with
  | keyboard c =>
    cases focused with
    | false => left; rfl
    | true =>
      have he : st.handleInput true loc (.keyboard c) =
          if c = Keys.LEFT then (st.selectPrevious, true)
          else if c = Keys.RIGHT then (st.selectNext, true)
          else (st, false) := rfl
      rw [he]
      by_cases hL : c = Keys.LEFT
      · rw [if_pos hL]
        right; left; rfl
      · rw [if_neg hL]
        by_cases hR : c = Keys.RIGHT
        · rw [if_pos hR]
          right; right; rfl
        · rw [if_neg hR]
          left; rfl
  | mouse x y b =>
    cases loc with
    | none => left; rfl
    | some l =>
      cases b with
      | LEFT =>
        have he : st.handleInput focused (some l) (.mouse x y Buttons.LEFT) =
            if y - l.top = 0 ∧ x - l.left = 0 then (st.selectPrevious, true)
            else if y - l.top = 0 ∧ x - l.left = l.width - 1 then (st.selectNext, true)
            else (st, true) := rfl
        rw [he]
        by_cases h1 : y - l.top = 0 ∧ x - l.left = 0
        · rw [if_pos h1]
          right; left; rfl
        · rw [if_neg h1]
          by_cases h2 : y - l.top = 0 ∧ x - l.left = l.width - 1
          · rw [if_pos h2]
            right; right; rfl
          · rw [if_neg h2]
            left; rfl
      | MIDDLE => left; rfl
      | RIGHT => left; rfl
      | KEY => left; rfl
  | scroll x y d => left; rfl
  | defocus b => left; rfl

/-- C10: the selection of a `SelectInputComponent` is always one of its
options: the constructor and the `selected` setter reject values outside
the options; every `handle_input` transition is the identity or a move by
`select_previous`/`select_next`, keeps the option list unchanged and keeps
the selection inside it, and the moves go exactly to the adjacent option of
the first matching index, staying put at the ends. -/
theorem select_input_invariant :
    (∀ (sel : String) (opts : List String), sel ∈ opts →
      SelectInput.init sel opts = .ok ⟨sel, opts⟩) ∧
    (∀ (sel : String) (opts : List String), sel ∉ opts →
      SelectInput.init sel opts = .error "Selected value must be in options!") ∧
    (∀ (st : SelectInput) (v : String), v ∈ st.options →
      st.setSelected v = .ok { st with selected := v }) ∧
    (∀ (st : SelectInput) (v : String), v ∉ st.options →
      st.setSelected v = .error "Selected value must be in options!") ∧
    (∀ (st : SelectInput) (focused : Bool) (loc : Option BoundingRectangle)
        (ev : InputEvent), st.selected ∈ st.options →
      (st.handleInput focused loc ev).1.selected ∈ st.options ∧
      (st.handleInput focused loc ev).1.options = st.options) ∧
    (∀ (st : SelectInput) (i : Nat),
        st.options.findIdx? (fun o => o == st.selected) = some i →
      (i + 1 < st.options.length →
        st.options.get? (i + 1) = some (st.selectNext).selected) ∧
      (st.options.length ≤ i + 1 → st.selectNext = st)) ∧
    (∀ (st : SelectInput) (i : Nat),
        st.options.findIdx? (fun o => o == st.selected) = some i →
      (0 < i → st.options.get? (i - 1) = some (st.selectPrevious).selected) ∧
      (i = 0 → st.selectPrevious = st)) := by
  refine ⟨?_, ?_, ?_, ?_, ?_, ?_, ?_⟩
  · intro sel opts h
    unfold SelectInput.init
    rw [if_pos h]
  · intro sel opts h
    unfold SelectInput.init
    rw [if_neg h]
  · intro st v h
    unfold SelectInput.setSelected
    rw [if_pos h]
  · intro st v h
    unfold SelectInput.setSelected
    rw [if_neg h]
  · intro st focused loc ev h
    rcases handleInput_cases st focused loc ev with hc | hc | hc <;> rw [hc]
    · exact ⟨h, rfl⟩
    · exact ⟨selectPrevious_mem st h, selectPrevious_options st⟩
    · exact ⟨selectNext_mem st h, selectNext_options st⟩
  · intro st i hf
    have hbound := (findIdx?_some_bounds _ _ 0 i hf).2
    simp only [Nat.sub_zero] at hbound
    constructor
    · intro hlt
      unfold SelectInput.selectNext
      rw [hf]
      dsimp only
      have hi : i < st.options.length - 1 := by omega
      rw [if_pos hi]
      have hv : st.options.get? (i + 1) =
          some (st.options.get ⟨i + 1, by omega⟩) := List.get?_eq_get (by omega)
      rw [hv]
      simp
    · intro hle
      unfold SelectInput.selectNext
      rw [hf]
      dsimp only
      have hi : ¬ i < st.options.length - 1 := by omega
      rw [if_neg hi]
  · intro st i hf
    have hbound := (findIdx?_some_bounds _ _ 0 i hf).2
    simp only [Nat.sub_zero] at hbound
    constructor
    · intro hpos
      unfold SelectInput.selectPrevious
      rw [hf]
      dsimp only
      rw [if_pos hpos]
      have hv : st.options.get? (i - 1) =
          some (st.options.get ⟨i - 1, by omega⟩) := List.get?_eq_get (by omega)
      rw [hv]
      simp
    · intro h0
      unfold SelectInput.selectPrevious
      rw [hf]
      dsimp only
      rw [if_neg (by omega : ¬ 0 < i)]

/-- C10 witness: the invariant theorem applied to the concrete component
with options ["a", "b", "c"] and selection "b". -/
theorem select_input_invariant_witness :
    SelectInput.init "b" ["a", "b", "c"] = .ok ⟨"b", ["a", "b", "c"]⟩ ∧
    SelectInput.init "z" ["a", "b", "c"] =
      .error "Selected value must be in options!" ∧
    ((SelectInput.mk "b" ["a", "b", "c"]).handleInput true none
        (.keyboard "KEY_RIGHT")).1.selected ∈ ["a", "b", "c"] ∧
    ["a", "b", "c"].get? 2 =
      some ((SelectInput.mk "b" ["a", "b", "c"]).selectNext).selected := by
  have h := select_input_invariant
  refine ⟨h.1 "b" ["a", "b", "c"] (by decide), h.2.1 "z" ["a", "b", "c"] (by decide),
    (h.2.2.2.2.1 (SelectInput.mk "b" ["a", "b", "c"]) true none
      (.keyboard "KEY_RIGHT") (by decide)).1, ?_⟩
  exact (h.2.2.2.2.2.1 (SelectInput.mk "b" ["a", "b", "c"]) 1 (by decide)).1 (by decide)

/-! ### C8: formatted_string_length counts visible characters -/

/-- Helper: `replaceAux` maps the empty string to itself at any fuel. -/
theorem replaceAux_nil (pat rep : List Char) (fuel : Nat) :
    replaceAux pat rep fuel [] = [] := by
  cases fuel <;> rfl

/-- Helper: a pattern starting with a different character is not a prefix. -/
theorem isPrefixOf_cons_ne {p0 c : Char} (pr rest : List Char) (h : ¬ p0 = c) :
    (p0 :: pr).isPrefixOf (c :: rest) = false := by
  show (p0 == c && pr.isPrefixOf rest) = false
  have hb : (p0 == c) = false := by simp [h]
  rw [hb, Bool.false_and]

/-- Helper: one scanning step of `replaceAux` past a position where the
pattern does not match. -/
theorem replaceAux_step (pat rep : List Char) (c : Char) (f : Nat) (rest : List Char)
    (h : pat.isPrefixOf (c :: rest) = false) :
    replaceAux pat rep (f + 1) (c :: rest) = c :: replaceAux pat rep f rest := by
  show (if pat.isPrefixOf (c :: rest) = true then
      rep ++ replaceAux pat rep f (List.drop pat.length (c :: rest))
    else c :: replaceAux pat rep f rest) = c :: replaceAux pat rep f rest
  rw [if_neg]
  rw [h]
  exact Bool.false_ne_true

/-- Helper: `replaceAux` replaces an occurrence of the pattern sitting at
the scan position. -/
theorem replaceAux_hit (p0 : Char) (pr rep : List Char) (f : Nat) (rest : List Char) :
    replaceAux (p0 :: pr) rep (f + 1) (p0 :: (pr ++ rest)) =
      rep ++ replaceAux (p0 :: pr) rep f rest := by
  have hpre : (p0 :: pr).isPrefixOf (p0 :: (pr ++ rest)) = true := by
    rw [show p0 :: (pr ++ rest) = (p0 :: pr) ++ rest from rfl, List.isPrefixOf_iff_prefix]
    exact List.prefix_append _ _
  show (if (p0 :: pr).isPrefixOf (p0 :: (pr ++ rest)) = true then
      rep ++ replaceAux (p0 :: pr) rep f (List.drop (p0 :: pr).length (p0 :: (pr ++ rest)))
    else p0 :: replaceAux (p0 :: pr) rep f (pr ++ rest)) =
      rep ++ replaceAux (p0 :: pr) rep f rest
  rw [if_pos hpre]
  have hdrop : List.drop (p0 :: pr).length (p0 :: (pr ++ rest)) = rest := by
    show List.drop (p0 :: pr).length ((p0 :: pr) ++ rest) = rest
    exact List.drop_left _ _
  rw [hdrop]

/-- Helper: `replaceAux` walks over a whole block inside which the pattern
matches at no position, consuming fuel equal to the block's length. -/
theorem replaceAux_skip (pat rep : List Char) :
    ∀ (u : List Char) (f : Nat) (rest : List Char),
    (∀ k, k < u.length → pat.isPrefixOf (u.drop k ++ rest) = false) →
    replaceAux pat rep (f + u.length) (u ++ rest) = u ++ replaceAux pat rep f rest := by
  intro u
  induction u with
  | nil => intro f rest _; simp
  | cons c u' ih =>
    intro f rest hk
    have h0 : pat.isPrefixOf (c :: (u' ++ rest)) = false := by
      have h := hk 0 (by simp)
      simpa using h
    have hlen : f + (c :: u').length = (f + u'.length) + 1 := by
      simp only [List.length_cons]
      omega
    rw [hlen]
    rw [show (c :: u') ++ rest = c :: (u' ++ rest) from rfl]
    rw [replaceAux_step pat rep c (f + u'.length) (u' ++ rest) h0]
    rw [ih f rest (fun k hkk => by simpa using hk (k + 1) (by simpa using hkk))]
    rfl

/-- Helper: rendering distributes over cons. -/
theorem textFlat_cons (f : MarkupTok → List Char) (t : MarkupTok) (us : List MarkupTok) :
    textFlat f (t :: us) = f t ++ textFlat f us := by
  simp [textFlat]

/-- Helper: first sanitize pass on a rendered text-token list: every
`&lt;` becomes `<`, the other escapes and plain characters are untouched. -/
theorem replace_lt_textFlat :
    ∀ (us : List MarkupTok) (fuel : Nat),
    (∀ t ∈ us, t.isText ∧ t.wf) → (textFlat MarkupTok.render us).length ≤ fuel →
    replaceAux ['&', 'l', 't', ';'] ['<'] fuel (textFlat MarkupTok.render us) =
      textFlat tokRender1 us := by
  intro us
  induction us with
  | nil =>
    intro fuel _ _
    show replaceAux _ _ fuel [] = []
    exact replaceAux_nil _ _ _
  | cons tok us' ih =>
    intro fuel hwf hfuel
    have htok := hwf tok (List.mem_cons_self tok us')
    have hrest : ∀ t ∈ us', t.isText ∧ t.wf := fun t ht => hwf t (List.mem_cons_of_mem _ ht)
    rw [textFlat_cons] at hfuel ⊢
    rw [textFlat_cons]
    cases tok with
    | tag t => exact htok.1.elim
    | lit c =>
      have hc : ¬ ('&' : Char) = c := fun h => htok.2.2.2 h.symm
      simp only [MarkupTok.render, List.length_append, List.length_cons,
        List.length_nil] at hfuel
      obtain ⟨f, rfl⟩ : ∃ f, fuel = f + 1 := ⟨fuel - 1, by omega⟩
      rw [show MarkupTok.render (.lit c) = [c] from rfl]
      rw [show ([c] : List Char) ++ textFlat MarkupTok.render us' =
        c :: textFlat MarkupTok.render us' from rfl]
      rw [replaceAux_step _ _ _ _ _ (isPrefixOf_cons_ne _ _ hc)]
      rw [ih f hrest (by omega)]
      rfl
    | escLt =>
      simp only [MarkupTok.render, List.length_append, List.length_cons,
        List.length_nil] at hfuel
      obtain ⟨f, rfl⟩ : ∃ f, fuel = f + 1 := ⟨fuel - 1, by omega⟩
      rw [show MarkupTok.render .escLt = ['&', 'l', 't', ';'] from rfl]
      rw [show (['&', 'l', 't', ';'] : List Char) ++ textFlat MarkupTok.render us' =
        '&' :: (['l', 't', ';'] ++ textFlat MarkupTok.render us') from rfl]
      rw [replaceAux_hit]
      rw [ih f hrest (by omega)]
      rfl
    | escGt =>
      simp only [MarkupTok.render, List.length_append, List.length_cons,
        List.length_nil] at hfuel
      obtain ⟨f, rfl⟩ : ∃ f, fuel = f + 4 := ⟨fuel - 4, by omega⟩
      rw [show MarkupTok.render .escGt = ['&', 'g', 't', ';'] from rfl]
      rw [show f + 4 = f + (['&', 'g', 't', ';'] : List Char).length from rfl]
      rw [replaceAux_skip _ _ _ _ _ (by intro k hk; simp at hk; interval_cases k <;> rfl)]
      rw [ih f hrest (by omega)]
      rfl
    | escAmp =>
      simp only [MarkupTok.render, List.length_append, List.length_cons,
        List.length_nil] at hfuel
      obtain ⟨f, rfl⟩ : ∃ f, fuel = f + 5 := ⟨fuel - 5, by omega⟩
      rw [show MarkupTok.render .escAmp = ['&', 'a', 'm', 'p', ';'] from rfl]
      rw [show f + 5 = f + (['&', 'a', 'm', 'p', ';'] : List Char).length from rfl]
      rw [replaceAux_skip _ _ _ _ _ (by intro k hk; simp at hk; interval_cases k <;> rfl)]
      rw [ih f hrest (by omega)]
      rfl

/-- Helper: second sanitize pass: every `&gt;` becomes `>`. -/
theorem replace_gt_textFlat :
    ∀ (us : List MarkupTok) (fuel : Nat),
    (∀ t ∈ us, t.isText ∧ t.wf) → (textFlat tokRender1 us).length ≤ fuel →
    replaceAux ['&', 'g', 't', ';'] ['>'] fuel (textFlat tokRender1 us) =
      textFlat tokRender2 us := by
  intro us
  induction us with
  | nil =>
    intro fuel _ _
    show replaceAux _ _ fuel [] = []
    exact replaceAux_nil _ _ _
  | cons tok us' ih =>
    intro fuel hwf hfuel
    have htok := hwf tok (List.mem_cons_self tok us')
    have hrest : ∀ t ∈ us', t.isText ∧ t.wf := fun t ht => hwf t (List.mem_cons_of_mem _ ht)
    rw [textFlat_cons] at hfuel ⊢
    rw [textFlat_cons]
    cases tok with
    | tag t => exact htok.1.elim
    | lit c =>
      have hc : ¬ ('&' : Char) = c := fun h => htok.2.2.2 h.symm
      simp only [tokRender1, List.length_append, List.length_cons,
        List.length_nil] at hfuel
      obtain ⟨f, rfl⟩ : ∃ f, fuel = f + 1 := ⟨fuel - 1, by omega⟩
      rw [show tokRender1 (.lit c) = [c] from rfl]
      rw [show ([c] : List Char) ++ textFlat tokRender1 us' =
        c :: textFlat tokRender1 us' from rfl]
      rw [replaceAux_step _ _ _ _ _ (isPrefixOf_cons_ne _ _ hc)]
      rw [ih f hrest (by omega)]
      rfl
    | escLt =>
      simp only [tokRender1, List.length_append, List.length_cons,
        List.length_nil] at hfuel
      obtain ⟨f, rfl⟩ : ∃ f, fuel = f + 1 := ⟨fuel - 1, by omega⟩
      rw [show tokRender1 .escLt = ['<'] from rfl]
      rw [show (['<'] : List Char) ++ textFlat tokRender1 us' =
        '<' :: textFlat tokRender1 us' from rfl]
      rw [replaceAux_step _ _ _ _ _ (isPrefixOf_cons_ne _ _ (by decide))]
      rw [ih f hrest (by omega)]
      rfl
    | escGt =>
      simp only [tokRender1, List.length_append, List.length_cons,
        List.length_nil] at hfuel
      obtain ⟨f, rfl⟩ : ∃ f, fuel = f + 1 := ⟨fuel - 1, by omega⟩
      rw [show tokRender1 .escGt = ['&', 'g', 't', ';'] from rfl]
      rw [show (['&', 'g', 't', ';'] : List Char) ++ textFlat tokRender1 us' =
        '&' :: (['g', 't', ';'] ++ textFlat tokRender1 us') from rfl]
      rw [replaceAux_hit]
      rw [ih f hrest (by omega)]
      rfl
    | escAmp =>
      simp only [tokRender1, List.length_append, List.length_cons,
        List.length_nil] at hfuel
      obtain ⟨f, rfl⟩ : ∃ f, fuel = f + 5 := ⟨fuel - 5, by omega⟩
      rw [show tokRender1 .escAmp = ['&', 'a', 'm', 'p', ';'] from rfl]
      rw [show f + 5 = f + (['&', 'a', 'm', 'p', ';'] : List Char).length from rfl]
      rw [replaceAux_skip _ _ _ _ _ (by intro k hk; simp at hk; interval_cases k <;> rfl)]
      rw [ih f hrest (by omega)]
      rfl

/-- Helper: third sanitize pass: every `&amp;` becomes `&`. -/
theorem replace_amp_textFlat :
    ∀ (us : List MarkupTok) (fuel : Nat),
    (∀ t ∈ us, t.isText ∧ t.wf) → (textFlat tokRender2 us).length ≤ fuel →
    replaceAux ['&', 'a', 'm', 'p', ';'] ['&'] fuel (textFlat tokRender2 us) =
      textFlat tokRender3 us := by
  intro us
  induction us with
  | nil =>
    intro fuel _ _
    show replaceAux _ _ fuel [] = []
    exact replaceAux_nil _ _ _
  | cons tok us' ih =>
    intro fuel hwf hfuel
    have htok := hwf tok (List.mem_cons_self tok us')
    have hrest : ∀ t ∈ us', t.isText ∧ t.wf := fun t ht => hwf t (List.mem_cons_of_mem _ ht)
    rw [textFlat_cons] at hfuel ⊢
    rw [textFlat_cons]
    cases tok with
    | tag t => exact htok.1.elim
    | lit c =>
      have hc : ¬ ('&' : Char) = c := fun h => htok.2.2.2 h.symm
      simp only [tokRender2, List.length_append, List.length_cons,
        List.length_nil] at hfuel
      obtain ⟨f, rfl⟩ : ∃ f, fuel = f + 1 := ⟨fuel - 1, by omega⟩
      rw [show tokRender2 (.lit c) = [c] from rfl]
      rw [show ([c] : List Char) ++ textFlat tokRender2 us' =
        c :: textFlat tokRender2 us' from rfl]
      rw [replaceAux_step _ _ _ _ _ (isPrefixOf_cons_ne _ _ hc)]
      rw [ih f hrest (by omega)]
      rfl
    | escLt =>
      simp only [tokRender2, List.length_append, List.length_cons,
        List.length_nil] at hfuel
      obtain ⟨f, rfl⟩ : ∃ f, fuel = f + 1 := ⟨fuel - 1, by omega⟩
      rw [show tokRender2 .escLt = ['<'] from rfl]
      rw [show (['<'] : List Char) ++ textFlat tokRender2 us' =
        '<' :: textFlat tokRender2 us' from rfl]
      rw [replaceAux_step _ _ _ _ _ (isPrefixOf_cons_ne _ _ (by decide))]
      rw [ih f hrest (by omega)]
      rfl
    | escGt =>
      simp only [tokRender2, List.length_append, List.length_cons,
        List.length_nil] at hfuel
      obtain ⟨f, rfl⟩ : ∃ f, fuel = f + 1 := ⟨fuel - 1, by omega⟩
      rw [show tokRender2 .escGt = ['>'] from rfl]
      rw [show (['>'] : List Char) ++ textFlat tokRender2 us' =
        '>' :: textFlat tokRender2 us' from rfl]
      rw [replaceAux_step _ _ _ _ _ (isPrefixOf_cons_ne _ _ (by decide))]
      rw [ih f hrest (by omega)]
      rfl
    | escAmp =>
      simp only [tokRender2, List.length_append, List.length_cons,
        List.length_nil] at hfuel
      obtain ⟨f, rfl⟩ : ∃ f, fuel = f + 1 := ⟨fuel - 1, by omega⟩
      rw [show tokRender2 .escAmp = ['&', 'a', 'm', 'p', ';'] from rfl]
      rw [show (['&', 'a', 'm', 'p', ';'] : List Char) ++ textFlat tokRender2 us' =
        '&' :: (['a', 'm', 'p', ';'] ++ textFlat tokRender2 us') from rfl]
      rw [replaceAux_hit]
      rw [ih f hrest (by omega)]
      rfl

/-- Helper: the third-pass image is the list of visible characters. -/
theorem textFlat_tokRender3 :
    ∀ (us : List MarkupTok), (∀ t ∈ us, t.isText) →
    textFlat tokRender3 us = us.map MarkupTok.visChar := by
  intro us
  induction us with
  | nil => intro _; rfl
  | cons tok us' ih =>
    intro h
    have htok := h tok (List.mem_cons_self tok us')
    have hrest : ∀ t ∈ us', t.isText := fun t ht => h t (List.mem_cons_of_mem _ ht)
    rw [textFlat_cons, ih hrest]
    cases tok with
    | tag t => exact htok.elim
    | lit c => rfl
    | escLt => rfl
    | escGt => rfl
    | escAmp => rfl

/-- Helper: sanitising a rendered text run yields exactly its visible
characters, one per token. -/
theorem sanitize_textFlat (us : List MarkupTok) (h : ∀ t ∈ us, t.isText ∧ t.wf) :
    sanitizeList (textFlat MarkupTok.render us) = us.map MarkupTok.visChar := by
  unfold sanitizeList replaceList
  rw [show "&lt;".toList = ['&', 'l', 't', ';'] from rfl]
  rw [show "<".toList = ['<'] from rfl]
  rw [show "&gt;".toList = ['&', 'g', 't', ';'] from rfl]
  rw [show ">".toList = ['>'] from rfl]
  rw [show "&amp;".toList = ['&', 'a', 'm', 'p', ';'] from rfl]
  rw [show "&".toList = ['&'] from rfl]
  rw [replace_lt_textFlat us _ h (le_refl _)]
  rw [replace_gt_textFlat us _ h (le_refl _)]
  rw [replace_amp_textFlat us _ h (le_refl _)]
  exact textFlat_tokRender3 us (fun t ht => (h t ht).1)

/-- Helper: the splitter accumulates ordinary characters (neither `<` nor
`>`) into the current part. -/
theorem splitAux_accum :
    ∀ (u acc rest : List Char), (∀ c ∈ u, c ≠ '<' ∧ c ≠ '>') →
    splitAux acc (u ++ rest) = splitAux (acc ++ u) rest := by
  intro u
  induction u with
  | nil => intro acc rest _; simp
  | cons c u' ih =>
    intro acc rest h
    have hc := h c (List.mem_cons_self c u')
    have hrest : ∀ ch ∈ u', ch ≠ '<' ∧ ch ≠ '>' := fun ch hch => h ch (List.mem_cons_of_mem _ hch)
    show splitAux acc (c :: (u' ++ rest)) = _
    simp only [splitAux]
    rw [if_neg hc.1, if_neg hc.2]
    rw [ih (acc ++ [c]) rest hrest]
    rw [← List.append_cons]

/-- Helper: rendering distributes over cons. -/
theorem renderMarkup_cons (t : MarkupTok) (ts : List MarkupTok) :
    renderMarkup (t :: ts) = t.render ++ renderMarkup ts := by
  simp [renderMarkup]

/-- Helper: splitting a rendered well-formed markup string yields exactly
the tags as tag parts and the maximal text runs as text parts. -/
theorem splitAux_renderMarkup :
    ∀ (toks : List MarkupTok) (acc : List Char),
    (∀ c ∈ acc, c ≠ '<' ∧ c ≠ '>') → (∀ t ∈ toks, t.wf) →
    splitAux acc (renderMarkup toks) = markupPartsAux acc toks := by
  intro toks
  induction toks with
  | nil => intro acc _ _; rfl
  | cons tok rest ih =>
    intro acc hacc hwf
    have htok := hwf tok (List.mem_cons_self tok rest)
    have hrest : ∀ t ∈ rest, t.wf := fun t ht => hwf t (List.mem_cons_of_mem _ ht)
    rw [renderMarkup_cons]
    cases tok with
    | tag t =>
      rw [show MarkupTok.render (.tag t) = '<' :: (t ++ ['>']) from rfl]
      rw [show ('<' :: (t ++ ['>'])) ++ renderMarkup rest =
        '<' :: ((t ++ ['>']) ++ renderMarkup rest) from rfl]
      rw [show splitAux acc ('<' :: ((t ++ ['>']) ++ renderMarkup rest)) =
        (if acc.isEmpty then [] else [acc]) ++
          splitAux ['<'] ((t ++ ['>']) ++ renderMarkup rest) from rfl]
      rw [show (t ++ ['>']) ++ renderMarkup rest = t ++ ('>' :: renderMarkup rest) by
        rw [List.append_assoc]; rfl]
      rw [splitAux_accum t ['<'] _ (fun c hc => htok c hc)]
      rw [show (['<'] : List Char) ++ t = '<' :: t from rfl]
      rw [show splitAux ('<' :: t) ('>' :: renderMarkup rest) =
        (('<' :: t) ++ ['>']) :: splitAux [] (renderMarkup rest) from rfl]
      rw [ih [] (by simp) hrest]
      rfl
    | lit c =>
      have hfree : ∀ ch ∈ MarkupTok.render (.lit c), ch ≠ '<' ∧ ch ≠ '>' := by
        intro ch hch
        simp only [MarkupTok.render, List.mem_singleton] at hch
        subst hch
        exact ⟨htok.1, htok.2.1⟩
      rw [splitAux_accum _ _ _ hfree]
      rw [ih _ (by
        intro ch hch
        rcases List.mem_append.mp hch with h1 | h1
        · exact hacc ch h1
        · exact hfree ch h1) hrest]
      rfl
    | escLt =>
      have hfree : ∀ ch ∈ MarkupTok.render .escLt, ch ≠ '<' ∧ ch ≠ '>' := by decide
      rw [splitAux_accum _ _ _ hfree]
      rw [ih _ (by
        intro ch hch
        rcases List.mem_append.mp hch with h1 | h1
        · exact hacc ch h1
        · exact hfree ch h1) hrest]
      rfl
    | escGt =>
      have hfree : ∀ ch ∈ MarkupTok.render .escGt, ch ≠ '<' ∧ ch ≠ '>' := by decide
      rw [splitAux_accum _ _ _ hfree]
      rw [ih _ (by
        intro ch hch
        rcases List.mem_append.mp hch with h1 | h1
        · exact hacc ch h1
        · exact hfree ch h1) hrest]
      rfl
    | escAmp =>
      have hfree : ∀ ch ∈ MarkupTok.render .escAmp, ch ≠ '<' ∧ ch ≠ '>' := by decide
      rw [splitAux_accum _ _ _ hfree]
      rw [ih _ (by
        intro ch hch
        rcases List.mem_append.mp hch with h1 | h1
        · exact hacc ch h1
        · exact hfree ch h1) hrest]
      rfl

/-- Helper: parts length is additive. -/
theorem partsLength_append (A B : List (List Char)) :
    partsLength (A ++ B) = partsLength A + partsLength B := by
  simp [partsLength]

/-- Helper: parts length of a cons. -/
theorem partsLength_cons (p : List Char) (ps : List (List Char)) :
    partsLength (p :: ps) =
      (if isTagPart p then 0 else (sanitizeList p).length) + partsLength ps := by
  simp [partsLength]

/-- Helper: a part that does not start with `<` is not a tag part. -/
theorem isTagPart_cons_ne (c0 : Char) (l : List Char) (h : c0 ≠ '<') :
    isTagPart (c0 :: l) = false := by
  unfold isTagPart
  have hb : ((c0 :: l).head? == some '<') = false := by
    rw [show (c0 :: l).head? = some c0 from rfl]
    exact beq_eq_false_iff_ne.mpr (by simp [h])
  rw [hb, Bool.false_and]

/-- Helper: the flushed text accumulator contributes one visible character
per text token it holds. -/
theorem partsLength_emit (accUs : List MarkupTok)
    (h : ∀ t ∈ accUs, t.isText ∧ t.wf) :
    partsLength (if (textFlat MarkupTok.render accUs).isEmpty then []
      else [textFlat MarkupTok.render accUs]) = accUs.length := by
  cases accUs with
  | nil => rfl
  | cons t0 rest =>
    have h0 := h t0 (List.mem_cons_self t0 rest)
    have hhead : ∃ c0 l, textFlat MarkupTok.render (t0 :: rest) = c0 :: l ∧ c0 ≠ '<' := by
      cases t0 with
      | tag t => exact h0.1.elim
      | lit c => exact ⟨c, _, rfl, h0.2.1⟩
      | escLt => exact ⟨'&', _, rfl, by decide⟩
      | escGt => exact ⟨'&', _, rfl, by decide⟩
      | escAmp => exact ⟨'&', _, rfl, by decide⟩
    obtain ⟨c0, l, hfl, hne⟩ := hhead
    rw [hfl, if_neg (by simp)]
    rw [partsLength_cons, isTagPart_cons_ne c0 l hne]
    rw [if_neg Bool.false_ne_true]
    rw [← hfl, sanitize_textFlat _ h]
    simp [partsLength]

/-- Helper: total visible length of the expected parts of a rendered
markup string. -/
theorem partsLength_markupPartsAux :
    ∀ (toks : List MarkupTok) (accUs : List MarkupTok),
    (∀ t ∈ toks, t.wf) → (∀ t ∈ accUs, t.isText ∧ t.wf) →
    partsLength (markupPartsAux (textFlat MarkupTok.render accUs) toks) =
      accUs.length + visibleLength toks := by
  intro toks
  induction toks with
  | nil =>
    intro accUs _ hacc
    rw [show markupPartsAux (textFlat MarkupTok.render accUs) [] =
      (if (textFlat MarkupTok.render accUs).isEmpty then []
        else [textFlat MarkupTok.render accUs]) from rfl]
    rw [partsLength_emit accUs hacc]
    simp [visibleLength]
  | cons tok rest ih =>
    intro accUs hwf hacc
    have htok := hwf tok (List.mem_cons_self tok rest)
    have hrest : ∀ t ∈ rest, t.wf := fun t ht => hwf t (List.mem_cons_of_mem _ ht)
    cases tok with
    | tag t =>
      rw [show markupPartsAux (textFlat MarkupTok.render accUs) (.tag t :: rest) =
        (if (textFlat MarkupTok.render accUs).isEmpty then []
          else [textFlat MarkupTok.render accUs]) ++
          (('<' :: (t ++ ['>'])) :: markupPartsAux [] rest) from rfl]
      rw [partsLength_append, partsLength_cons]
      have htag : isTagPart ('<' :: (t ++ ['>'])) = true := by
        unfold isTagPart
        have h2 : ('<' :: (t ++ ['>'])).getLast? = some '>' := by
          rw [show '<' :: (t ++ ['>']) = ('<' :: t) ++ ['>'] from rfl]
          exact List.getLast?_concat _
        rw [show ('<' :: (t ++ ['>'])).head? = some '<' from rfl, h2]
        rfl
      rw [htag, if_pos rfl]
      rw [partsLength_emit accUs hacc]
      have hih := ih [] hrest (by simp)
      rw [show (textFlat MarkupTok.render [] : List Char) = [] from rfl] at hih
      rw [hih]
      simp [visibleLength, MarkupTok.visibleLen]
    | lit c =>
      rw [show markupPartsAux (textFlat MarkupTok.render accUs) (.lit c :: rest) =
        markupPartsAux (textFlat MarkupTok.render accUs ++ MarkupTok.render (.lit c))
          rest from rfl]
      rw [show textFlat MarkupTok.render accUs ++ MarkupTok.render (.lit c) =
        textFlat MarkupTok.render (accUs ++ [.lit c]) by simp [textFlat]]
      rw [ih (accUs ++ [MarkupTok.lit c]) hrest (by
        intro u hu
        rcases List.mem_append.mp hu with h1 | h1
        · exact hacc u h1
        · rw [List.mem_singleton.mp h1]
          exact ⟨trivial, htok⟩)]
      simp [visibleLength, MarkupTok.visibleLen]
      omega
    | escLt =>
      rw [show markupPartsAux (textFlat MarkupTok.render accUs) (.escLt :: rest) =
        markupPartsAux (textFlat MarkupTok.render accUs ++ MarkupTok.render .escLt)
          rest from rfl]
      rw [show textFlat MarkupTok.render accUs ++ MarkupTok.render .escLt =
        textFlat MarkupTok.render (accUs ++ [.escLt]) by simp [textFlat]]
      rw [ih (accUs ++ [MarkupTok.escLt]) hrest (by
        intro u hu
        rcases List.mem_append.mp hu with h1 | h1
        · exact hacc u h1
        · rw [List.mem_singleton.mp h1]
          exact ⟨trivial, trivial⟩)]
      simp [visibleLength, MarkupTok.visibleLen]
      omega
    | escGt =>
      rw [show markupPartsAux (textFlat MarkupTok.render accUs) (.escGt :: rest) =
        markupPartsAux (textFlat MarkupTok.render accUs ++ MarkupTok.render .escGt)
          rest from rfl]
      rw [show textFlat MarkupTok.render accUs ++ MarkupTok.render .escGt =
        textFlat MarkupTok.render (accUs ++ [.escGt]) by simp [textFlat]]
      rw [ih (accUs ++ [MarkupTok.escGt]) hrest (by
        intro u hu
        rcases List.mem_append.mp hu with h1 | h1
        · exact hacc u h1
        · rw [List.mem_singleton.mp h1]
          exact ⟨trivial, trivial⟩)]
      simp [visibleLength, MarkupTok.visibleLen]
      omega
    | escAmp =>
      rw [show markupPartsAux (textFlat MarkupTok.render accUs) (.escAmp :: rest) =
        markupPartsAux (textFlat MarkupTok.render accUs ++ MarkupTok.render .escAmp)
          rest from rfl]
      rw [show textFlat MarkupTok.render accUs ++ MarkupTok.render .escAmp =
        textFlat MarkupTok.render (accUs ++ [.escAmp]) by simp [textFlat]]
      rw [ih (accUs ++ [MarkupTok.escAmp]) hrest (by
        intro u hu
        rcases List.mem_append.mp hu with h1 | h1
        · exact hacc u h1
        · rw [List.mem_singleton.mp h1]
          exact ⟨trivial, trivial⟩)]
      simp [visibleLength, MarkupTok.visibleLen]
      omega

/-- C8: `formatted_string_length` counts the visible characters of a
markup string: on the concrete examples it returns 5 for "plain" and 2 for
"&lt;red&gt;hi&lt;/red&gt;", and on every well-formed markup token string
every `<...>` tag contributes 0 while each plain character and each escape
sequence (`&lt;`, `&gt;`, `&amp;`) contributes exactly 1. -/
theorem formatted_string_length_visible_count :
    formattedStringLength "plain".toList = 5 ∧
    formattedStringLength "<red>hi</red>".toList = 2 ∧
    ∀ (toks : List MarkupTok), (∀ t ∈ toks, t.wf) →
      formattedStringLength (renderMarkup toks) = visibleLength toks := by
  refine ⟨by decide, by decide, ?_⟩
  intro toks hwf
  unfold formattedStringLength splitFormattedString
  rw [splitAux_renderMarkup toks [] (by simp) hwf]
  have h := partsLength_markupPartsAux toks [] hwf (by simp)
  rw [show (textFlat MarkupTok.render [] : List Char) = [] from rfl] at h
  rw [h]
  simp

/-- C8 witness: the counting theorem applied to the token string rendering
to "&lt;red&gt;hi&lt;/red&gt;". -/
theorem formatted_string_length_visible_count_witness :
    formattedStringLength (renderMarkup
      [MarkupTok.tag ['r', 'e', 'd'], MarkupTok.lit 'h', MarkupTok.lit 'i',
        MarkupTok.tag ['/', 'r', 'e', 'd']]) =
      visibleLength
        [MarkupTok.tag ['r', 'e', 'd'], MarkupTok.lit 'h', MarkupTok.lit 'i',
          MarkupTok.tag ['/', 'r', 'e', 'd']] :=
  formatted_string_length_visible_count.2.2 _ (by decide)

/-! ### C1: word wrap -/

/-- Helper: segments never get longer by discarding trailing whitespace. -/
theorem rstripLen_le_length (l : List Char) : rstripLen l ≤ l.length := by
  unfold rstripLen
  calc (l.reverse.dropWhile isTrailWS).length
      ≤ l.reverse.length := (List.dropWhile_sublist isTrailWS).length_le
    _ = l.length := List.length_reverse l

/-- Helper: `dropWhile` jumps over a block of satisfying elements. -/
theorem dropWhile_append_all (p : Char → Bool) :
    ∀ (u v : List Char), (∀ c ∈ u, p c = true) →
    (u ++ v).dropWhile p = v.dropWhile p := by
  intro u
  induction u with
  | nil => intro v _; rfl
  | cons c u' ih =>
    intro v h
    rw [show (c :: u') ++ v = c :: (u' ++ v) from rfl]
    rw [List.dropWhile_cons_of_pos (h c (List.mem_cons_self c u'))]
    exact ih v (fun ch hch => h ch (List.mem_cons_of_mem _ hch))

/-- Helper: trailing whitespace does not contribute to the stripped length. -/
theorem rstripLen_append_ws (xs t : List Char) (h : ∀ c ∈ t, isTrailWS c = true) :
    rstripLen (xs ++ t) = rstripLen xs := by
  unfold rstripLen
  rw [List.reverse_append]
  rw [dropWhile_append_all isTrailWS t.reverse xs.reverse
    (fun c hc => h c (List.mem_reverse.mp hc))]

/-- Helper: the wrap scanner's whitespace is trailing whitespace. -/
theorem trailws_of_spacetab (c : Char) (h : isSpaceTab c = true) :
    isTrailWS c = true := by
  unfold isSpaceTab at h
  unfold isTrailWS
  rw [Bool.or_eq_true] at h
  rcases h with h1 | h1 <;> simp [h1]

/-- Helper: a successful `findNonSpace` lands inside the string, strictly
beyond the whitespace character that started the search. -/
theorem findNonSpace_bounds (s : List Char) (i j : Nat) (c : Char)
    (hc : s.get? i = some c) (hsp : isSpaceTab c = true)
    (h : findNonSpace s i = some j) : i + 1 ≤ j ∧ j < s.length := by
  unfold findNonSpace at h
  cases hf : (s.drop i).findIdx? (fun ch => !isSpaceTab ch) with
  | none => rw [hf] at h; exact absurd h (by simp)
  | some k =>
    rw [hf] at h
    obtain rfl : i + k = j := Option.some_inj.mp h
    have hb := (findIdx?_some_bounds _ _ 0 k hf).2
    simp only [Nat.sub_zero, List.length_drop] at hb
    have hik : i < s.length := by
      by_contra hcon
      rw [List.get?_eq_none.mpr (by omega)] at hc
      exact absurd hc (by simp)
    constructor
    · rcases Nat.eq_zero_or_pos k with rfl | hk
      · exfalso
        obtain ⟨a, ha, hpa⟩ := findIdx?_some_get _ _ 0 0 hf
        rw [Nat.sub_zero, List.get?_drop, Nat.add_zero, hc] at ha
        obtain rfl : c = a := Option.some_inj.mp ha
        rw [hsp] at hpa
        exact absurd hpa (by simp)
      · omega
    · omega

/-- Helper: all characters the inner search skipped over are whitespace. -/
theorem findNonSpace_skipped (s : List Char) (i j : Nat)
    (h : findNonSpace s i = some j) :
    ∀ m, i ≤ m → m < j → ∃ c, s.get? m = some c ∧ isSpaceTab c = true := by
  unfold findNonSpace at h
  cases hf : (s.drop i).findIdx? (fun ch => !isSpaceTab ch) with
  | none => rw [hf] at h; exact absurd h (by simp)
  | some k =>
    rw [hf] at h
    obtain rfl : i + k = j := Option.some_inj.mp h
    intro m him hmj
    obtain ⟨a, ha, hpa⟩ := findIdx?_some_before _ _ 0 k hf (m - i) (by omega)
    rw [List.get?_drop] at ha
    refine ⟨a, ?_, ?_⟩
    · rw [show i + (m - i) = m by omega] at ha
      exact ha
    · simpa using hpa

/-- Helper: an element of a `take` is reachable by index below the bound. -/
theorem mem_take_get? {α : Type} (l : List α) (k : Nat) (c : α) (h : c ∈ l.take k) :
    ∃ m, m < k ∧ l.get? m = some c := by
  obtain ⟨n, hn⟩ := List.mem_iff_get?.mp h
  have hlt : n < (l.take k).length := by
    by_contra hc
    rw [List.get?_eq_none.mpr (by omega)] at hn
    exact absurd hn (by simp)
  have hk : n < k := by
    rw [List.length_take] at hlt
    exact Nat.lt_of_lt_of_le hlt (min_le_left _ _)
  refine ⟨n, hk, ?_⟩
  rw [← List.get?_take hk]
  exact hn

/-- Helper: every wrap possibility the scanner produces is a positive
in-range offset whose prefix, ignoring trailing whitespace, fits within the
width: a newline point ends right after its newline, the end of a wrapped
space run is all whitespace past the scan position, and a dash point obeys
the scanner's `i < width` guard. -/
theorem scanPossAux_facts (s : List Char) (W maxiter : Nat)
    (hmaxlen : maxiter ≤ s.length) (hmaxW : maxiter ≤ W + 1) :
    ∀ (fuel i : Nat) (acc : List Nat),
    (∀ x ∈ acc, 1 ≤ x ∧ x ≤ s.length ∧ rstripLen (s.take x) ≤ W) →
    ∀ x ∈ scanPossAux s W maxiter fuel i acc,
      1 ≤ x ∧ x ≤ s.length ∧ rstripLen (s.take x) ≤ W := by
  intro fuel
  induction fuel with
  | zero =>
    intro i acc hacc x hx
    exact hacc x hx
  | succ f ih =>
    intro i acc hacc x hx
    unfold scanPossAux at hx
    by_cases hi : i < maxiter
    · rw [if_pos hi] at hx
      cases hg : s.get? i with
      | none =>
        rw [hg] at hx
        dsimp only at hx
        exact hacc x hx
      | some c =>
        rw [hg] at hx
        dsimp only at hx
        by_cases hnl : c = '\n'
        · rw [if_pos hnl] at hx
          rcases List.mem_append.mp hx with h1 | h1
          · exact hacc x h1
          · obtain rfl : i + 1 = x := (List.mem_singleton.mp h1).symm
            refine ⟨by omega, by omega, ?_⟩
            rw [List.take_succ]
            rw [show s[i]? = some c by rw [← List.get?_eq_getElem?]; exact hg]
            rw [show (some c).toList = [c] from rfl]
            rw [rstripLen_append_ws _ _ (by
              intro ch hch
              rw [List.mem_singleton.mp hch, hnl]
              rfl)]
            calc rstripLen (s.take i) ≤ (s.take i).length := rstripLen_le_length _
              _ ≤ i := by rw [List.length_take]; exact min_le_left _ _
              _ ≤ W := by omega
        · rw [if_neg hnl] at hx
          by_cases hsp : c = ' ' ∨ c = '\t'
          · rw [if_pos hsp] at hx
            cases hfns : findNonSpace s i with
            | none =>
              rw [hfns] at hx
              dsimp only at hx
              exact hacc x hx
            | some j =>
              rw [hfns] at hx
              dsimp only at hx
              have hspb : isSpaceTab c = true := by
                rcases hsp with h | h <;> simp [isSpaceTab, h]
              have hb := findNonSpace_bounds s i j c hg hspb hfns
              refine ih j (acc ++ [j]) ?_ x hx
              intro y hy
              rcases List.mem_append.mp hy with h1 | h1
              · exact hacc y h1
              · obtain rfl : y = j := List.mem_singleton.mp h1
                refine ⟨by omega, by omega, ?_⟩
                rw [show y = i + (y - i) by omega, List.take_add]
                rw [rstripLen_append_ws _ _ (by
                  intro ch hch
                  obtain ⟨m, hm, hgm⟩ := mem_take_get? _ _ _ hch
                  rw [List.get?_drop] at hgm
                  obtain ⟨c2, hc2, hsp2⟩ := findNonSpace_skipped s i y hfns (i + m)
                    (by omega) (by omega)
                  rw [hc2] at hgm
                  obtain rfl : c2 = ch := Option.some_inj.mp hgm
                  exact trailws_of_spacetab _ hsp2)]
                calc rstripLen (s.take i) ≤ (s.take i).length := rstripLen_le_length _
                  _ ≤ i := by rw [List.length_take]; exact min_le_left _ _
                  _ ≤ W := by omega
          · rw [if_neg hsp] at hx
            by_cases hd : c = '-' ∧ i < W
            · rw [if_pos hd] at hx
              by_cases hda : 0 < i ∧ i + 1 < s.length ∧
                  Option.any Char.isAlphanum (s.get? (i - 1)) = true ∧
                  Option.any Char.isAlphanum (s.get? (i + 1)) = true
              · rw [if_pos hda] at hx
                refine ih (i + 1) (acc ++ [i + 1]) ?_ x hx
                intro y hy
                rcases List.mem_append.mp hy with h1 | h1
                · exact hacc y h1
                · obtain rfl : i + 1 = y := (List.mem_singleton.mp h1).symm
                  refine ⟨by omega, by omega, ?_⟩
                  calc rstripLen (s.take (i + 1)) ≤ (s.take (i + 1)).length :=
                      rstripLen_le_length _
                    _ ≤ i + 1 := by rw [List.length_take]; exact min_le_left _ _
                    _ ≤ W := by omega
              · rw [if_neg hda] at hx
                exact ih (i + 1) acc hacc x hx
            · rw [if_neg hd] at hx
              exact ih (i + 1) acc hacc x hx
    · rw [if_neg hi] at hx
      exact hacc x hx

/-- Helper: the possibility list of one wrap iteration, with its width
bound. -/
theorem scanPoss_facts (s : List Char) (W : Nat) :
    ∀ x ∈ scanPoss s W, 1 ≤ x ∧ x ≤ s.length ∧ rstripLen (s.take x) ≤ W := by
  intro x hx
  exact scanPossAux_facts s W (min s.length (W + 1)) (min_le_left _ _)
    (min_le_right _ _) (min s.length (W + 1) + 1) 0 [] (by simp) x hx

/-- Helper: the base-case newline points of a chunk are strictly ascending
and lie within the chunk. -/
theorem newlinePoints_facts :
    ∀ (s : List Char) (b : Nat),
    (∀ x ∈ newlinePoints s b, b + 1 ≤ x ∧ x ≤ b + s.length) ∧
    List.Chain' (· < ·) (newlinePoints s b) := by
  intro s
  induction s with
  | nil =>
    intro b
    exact ⟨by intro x hx; exact absurd hx (List.not_mem_nil x), List.chain'_nil⟩
  | cons c r ih =>
    intro b
    have ihb := ih (b + 1)
    constructor
    · intro x hx
      unfold newlinePoints at hx
      rcases List.mem_append.mp hx with h1 | h1
      · by_cases hc : c = '\n'
        · rw [if_pos hc] at h1
          obtain rfl : x = b + 1 := List.mem_singleton.mp h1
          exact ⟨le_refl _, by simp⟩
        · rw [if_neg hc] at h1
          exact absurd h1 (List.not_mem_nil x)
      · have h2 := ihb.1 x h1
        refine ⟨by omega, ?_⟩
        rw [List.length_cons]
        omega
    · unfold newlinePoints
      by_cases hc : c = '\n'
      · rw [if_pos hc]
        refine List.chain'_append.mpr ⟨List.chain'_singleton _, ihb.2, ?_⟩
        intro x hx y hy
        obtain rfl : b + 1 = x := by simpa using hx
        have := (ihb.1 y (List.mem_of_mem_head? hy)).1
        omega
      · rw [if_neg hc]
        rw [List.nil_append]
        exact ihb.2

/-- Helper: newline points translate with the running offset. -/
theorem newlinePoints_shift :
    ∀ (s : List Char) (a b : Nat),
    newlinePoints s (a + b) = (newlinePoints s b).map (a + ·) := by
  intro s
  induction s with
  | nil => intro a b; rfl
  | cons c r ih =>
    intro a b
    unfold newlinePoints
    rw [show a + b + 1 = a + (b + 1) by omega]
    rw [ih a (b + 1)]
    by_cases hc : c = '\n'
    · rw [if_pos hc, if_pos hc]
      simp [Nat.add_assoc]
    · rw [if_neg hc, if_neg hc]
      simp

/-- Helper: unfolding equation of `wrapAux` for an empty remainder. -/
theorem wrapAux_empty (W n p : Nat) (acc : List Nat) :
    wrapAux W (n + 1) [] p acc = acc := rfl

/-- Helper: unfolding equation of `wrapAux` for the in-width base case. -/
theorem wrapAux_base (W n : Nat) (s : List Char) (p : Nat) (acc : List Nat)
    (hne : s.isEmpty = false) (hle : s.length ≤ W) :
    wrapAux W (n + 1) s p acc = acc ++ newlinePoints s p := by
  show (if s.isEmpty = true then acc
    else if s.length ≤ W then acc ++ newlinePoints s p
    else match (scanPoss s W).getLast? with
      | some last => wrapAux W n (s.drop last) (p + last) (acc ++ [p + last])
      | none => wrapAux W n (s.drop W) (p + W) (acc ++ [p + W])) =
    acc ++ newlinePoints s p
  rw [hne]
  rw [if_neg Bool.false_ne_true, if_pos hle]

/-- Helper: unfolding equation of `wrapAux` for an over-width remainder. -/
theorem wrapAux_scan (W n : Nat) (s : List Char) (p : Nat) (acc : List Nat)
    (hne : s.isEmpty = false) (hgt : ¬ s.length ≤ W) :
    wrapAux W (n + 1) s p acc = (match (scanPoss s W).getLast? with
      | some last => wrapAux W n (s.drop last) (p + last) (acc ++ [p + last])
      | none => wrapAux W n (s.drop W) (p + W) (acc ++ [p + W])) := by
  show (if s.isEmpty = true then acc
    else if s.length ≤ W then acc ++ newlinePoints s p
    else match (scanPoss s W).getLast? with
      | some last => wrapAux W n (s.drop last) (p + last) (acc ++ [p + last])
      | none => wrapAux W n (s.drop W) (p + W) (acc ++ [p + W])) = _
  rw [hne]
  rw [if_neg Bool.false_ne_true, if_neg hgt]

/-- Helper: the accumulator of `wrapAux` is a passive prefix. -/
theorem wrapAux_acc (W : Nat) :
    ∀ (fuel : Nat) (s : List Char) (p : Nat) (acc : List Nat),
    wrapAux W fuel s p acc = acc ++ wrapAux W fuel s p [] := by
  intro fuel
  induction fuel with
  | zero => intro s p acc; simp [wrapAux]
  | succ n ih =>
    intro s p acc
    cases hse : s with
    | nil => rw [wrapAux_empty, wrapAux_empty]; simp
    | cons c r =>
      have hne : (c :: r).isEmpty = false := rfl
      by_cases hle : (c :: r).length ≤ W
      · rw [wrapAux_base W n _ p acc hne hle, wrapAux_base W n _ p [] hne hle]
        simp
      · rw [wrapAux_scan W n _ p acc hne hle, wrapAux_scan W n _ p [] hne hle]
        cases hg : (scanPoss (c :: r) W).getLast? with
        | some last =>
          dsimp only
          rw [ih _ _ (acc ++ [p + last]), ih _ _ ([] ++ [p + last])]
          simp
        | none =>
          dsimp only
          rw [ih _ _ (acc ++ [p + W]), ih _ _ ([] ++ [p + W])]
          simp

/-- Helper: the `processed` offset of `wrapAux` shifts all produced
points. -/
theorem wrapAux_shift (W : Nat) :
    ∀ (fuel : Nat) (s : List Char) (p : Nat),
    wrapAux W fuel s p [] = (wrapAux W fuel s 0 []).map (p + ·) := by
  intro fuel
  induction fuel with
  | zero => intro s p; simp [wrapAux]
  | succ n ih =>
    intro s p
    cases hse : s with
    | nil => rw [wrapAux_empty, wrapAux_empty]; simp
    | cons c r =>
      have hne : (c :: r).isEmpty = false := rfl
      by_cases hle : (c :: r).length ≤ W
      · rw [wrapAux_base W n _ p [] hne hle, wrapAux_base W n _ 0 [] hne hle]
        rw [List.nil_append, List.nil_append]
        rw [show newlinePoints (c :: r) p = newlinePoints (c :: r) (p + 0) by rw [Nat.add_zero]]
        rw [newlinePoints_shift (c :: r) p 0]
      · rw [wrapAux_scan W n _ p [] hne hle, wrapAux_scan W n _ 0 [] hne hle]
        cases hg : (scanPoss (c :: r) W).getLast? with
        | some last =>
          dsimp only
          rw [List.nil_append, List.nil_append]
          rw [wrapAux_acc W n _ _ [p + last], wrapAux_acc W n _ _ [0 + last]]
          rw [ih ((c :: r).drop last) (p + last), ih ((c :: r).drop last) (0 + last)]
          simp [List.map_map, Function.comp, Nat.add_assoc]
        | none =>
          dsimp only
          rw [List.nil_append, List.nil_append]
          rw [wrapAux_acc W n _ _ [p + W], wrapAux_acc W n _ _ [0 + W]]
          rw [ih ((c :: r).drop W) (p + W), ih ((c :: r).drop W) (0 + W)]
          simp [List.map_map, Function.comp, Nat.add_assoc]

/-- Helper: when the whole remaining chunk fits, every slice between
in-range points fits. -/
theorem gapsOK_of_le (s : List Char) (W : Nat) (hlen : s.length ≤ W) :
    ∀ (ps : List Nat) (a : Nat), GapsOK s W a ps := by
  intro ps
  induction ps with
  | nil =>
    intro a
    show rstripLen (s.drop a) ≤ W
    calc rstripLen (s.drop a) ≤ (s.drop a).length := rstripLen_le_length _
      _ ≤ W := by rw [List.length_drop]; omega
  | cons p ps' ihp =>
    intro a
    refine ⟨?_, ihp p⟩
    calc rstripLen ((s.take p).drop a) ≤ ((s.take p).drop a).length :=
        rstripLen_le_length _
      _ ≤ W := by rw [List.length_drop, List.length_take]; omega

/-- Helper: slice bounds translate along a drop of the first `d`
characters. -/
theorem gapsOK_shift (s : List Char) (W d : Nat) (hd : d ≤ s.length) :
    ∀ (ps : List Nat) (a : Nat), GapsOK (s.drop d) W a ps →
    GapsOK s W (d + a) (ps.map (d + ·)) := by
  intro ps
  induction ps with
  | nil =>
    intro a h
    show rstripLen (s.drop (d + a)) ≤ W
    rw [← List.drop_drop]
    exact h
  | cons p ps' ihp =>
    intro a h
    refine ⟨?_, ihp p h.2⟩
    have he : (s.take (d + p)).drop (d + a) = ((s.drop d).take p).drop a := by
      rw [List.take_add]
      have hl : (s.take d).length = d := by
        rw [List.length_take]
        omega
      rw [show d + a = (s.take d).length + a by rw [hl]]
      rw [List.drop_append]
    rw [he]
    exact h.1

/-- Helper: dropping a final wrap point that sits exactly at the end of the
string preserves the slice bounds. -/
theorem gapsOK_drop_last (s : List Char) (W : Nat) :
    ∀ (ps : List Nat) (a : Nat), GapsOK s W a (ps ++ [s.length]) → GapsOK s W a ps := by
  intro ps
  induction ps with
  | nil =>
    intro a h
    show rstripLen (s.drop a) ≤ W
    have h1 := h.1
    rw [List.take_length] at h1
    exact h1
  | cons p ps' ihp =>
    intro a h
    exact ⟨h.1, ihp p h.2⟩

/-- Helper: the points produced by the wrap loop are strictly ascending
starting above 0, stay within the string, and bound every slice (with
trailing whitespace ignored) by the width. -/
theorem wrapAux_main (W : Nat) (hW : 0 < W) :
    ∀ (fuel : Nat) (s : List Char), s.length < fuel →
    List.Chain' (· < ·) (0 :: wrapAux W fuel s 0 []) ∧
    (∀ x ∈ wrapAux W fuel s 0 [], x ≤ s.length) ∧
    GapsOK s W 0 (wrapAux W fuel s 0 []) := by
  intro fuel
  induction fuel with
  | zero => intro s h; exact absurd h (Nat.not_lt_zero _)
  | succ n ih =>
    intro s hlen
    by_cases hemp : s = []
    · subst hemp
      rw [wrapAux_empty]
      refine ⟨List.chain'_singleton _, by simp, ?_⟩
      show rstripLen (List.drop 0 []) ≤ W
      simp [rstripLen]
    · have hne : s.isEmpty = false := by
        rw [List.isEmpty_eq_false]
        exact hemp
      by_cases hle : s.length ≤ W
      · rw [wrapAux_base W n s 0 [] hne hle, List.nil_append]
        have hnl := newlinePoints_facts s 0
        refine ⟨?_, ?_, gapsOK_of_le s W hle _ _⟩
        · rw [List.chain'_cons']
          refine ⟨?_, hnl.2⟩
          intro y hy
          have := (hnl.1 y (List.mem_of_mem_head? hy)).1
          omega
        · intro x hx
          have := (hnl.1 x hx).2
          omega
      · rw [wrapAux_scan W n s 0 [] hne hle]
        have hassemble : ∀ d : Nat, 1 ≤ d → d ≤ s.length → rstripLen (s.take d) ≤ W →
            List.Chain' (· < ·)
              (0 :: wrapAux W n (s.drop d) (0 + d) ([] ++ [0 + d])) ∧
            (∀ x ∈ wrapAux W n (s.drop d) (0 + d) ([] ++ [0 + d]), x ≤ s.length) ∧
            GapsOK s W 0 (wrapAux W n (s.drop d) (0 + d) ([] ++ [0 + d])) := by
          intro d hd1 hdlen hdstrip
          have hrw : wrapAux W n (s.drop d) (0 + d) ([] ++ [0 + d]) =
              d :: (wrapAux W n (s.drop d) 0 []).map (d + ·) := by
            rw [List.nil_append, Nat.zero_add]
            rw [wrapAux_acc W n _ _ [d]]
            rw [wrapAux_shift W n (s.drop d) d]
            rfl
          rw [hrw]
          obtain ⟨hchainX, hboundX, hgapsX⟩ := ih (s.drop d) (by
            rw [List.length_drop]
            omega)
          refine ⟨?_, ?_, ?_⟩
          · rw [List.chain'_cons']
            refine ⟨by intro y hy; simp at hy; omega, ?_⟩
            rw [List.chain'_cons']
            constructor
            · intro y hy
              rw [List.head?_map] at hy
              rcases hh : (wrapAux W n (s.drop d) 0 []).head? with _ | y0
              · rw [hh] at hy
                exact absurd hy (by simp)
              · rw [hh] at hy
                obtain rfl : d + y0 = y := by simpa using hy
                have h0y := (List.chain'_cons'.mp hchainX).1 y0 (by rw [hh]; rfl)
                omega
            · rw [List.chain'_map]
              exact ((List.chain'_cons'.mp hchainX).2).imp (fun a b hab => by omega)
          · intro x hx
            rcases List.mem_cons.mp hx with h1 | h1
            · omega
            · obtain ⟨x0, hx0, rfl⟩ := List.mem_map.mp h1
              have := hboundX x0 hx0
              rw [List.length_drop] at this
              omega
          · refine ⟨?_, ?_⟩
            · rw [List.drop_zero]
              exact hdstrip
            · have := gapsOK_shift s W d hdlen (wrapAux W n (s.drop d) 0 []) 0 hgapsX
              rw [Nat.add_zero] at this
              exact this
        cases hg : (scanPoss s W).getLast? with
        | some last =>
          dsimp only
          have hfacts := scanPoss_facts s W last (List.mem_of_mem_getLast? hg)
          exact hassemble last hfacts.1 hfacts.2.1 hfacts.2.2
        | none =>
          dsimp only
          refine hassemble W hW (by omega) ?_
          calc rstripLen (s.take W) ≤ (s.take W).length := rstripLen_le_length _
            _ ≤ W := by rw [List.length_take]; omega

/-- Helper: slicing at ascending in-range positions partitions the string:
the concatenation of all chunks is the string itself. -/
theorem chunksAux_flatten (s : List Char) :
    ∀ (pts : List Nat) (a : Nat), List.Chain' (· < ·) (a :: pts) →
    (∀ x ∈ pts, x ≤ s.length) →
    (chunksAux s a (pts ++ [s.length])).flatten = s.drop a := by
  intro pts
  induction pts with
  | nil =>
    intro a _ _
    show ((s.take s.length).drop a :: chunksAux s s.length []).flatten = s.drop a
    rw [List.take_length]
    simp [chunksAux]
  | cons p ps' ihp =>
    intro a hchain hbound
    have hap : a < p := (List.chain'_cons.mp hchain).1
    have hplen : p ≤ s.length := hbound p (List.mem_cons_self p ps')
    show ((s.take p).drop a :: chunksAux s p (ps' ++ [s.length])).flatten = s.drop a
    rw [List.flatten_cons]
    rw [ihp p (List.chain'_cons.mp hchain).2
      (fun x hx => hbound x (List.mem_cons_of_mem _ hx))]
    rw [List.drop_take]
    rw [show s.drop p = (s.drop a).drop (p - a) by
      rw [List.drop_drop]
      congr 1
      omega]
    exact List.take_append_drop _ _

/-- Helper: the chunk slices inherit the stripped-width bound from
`GapsOK`. -/
theorem chunksAux_rstrip (s : List Char) (W : Nat) :
    ∀ (pts : List Nat) (a : Nat), GapsOK s W a pts →
    ∀ chunk ∈ chunksAux s a (pts ++ [s.length]), rstripLen chunk ≤ W := by
  intro pts
  induction pts with
  | nil =>
    intro a h chunk hc
    have hch : chunk = (s.take s.length).drop a := by
      simpa [chunksAux] using hc
    rw [hch, List.take_length]
    exact h
  | cons p ps' ihp =>
    intro a h chunk hc
    rcases List.mem_cons.mp hc with h1 | h1
    · rw [h1]
      exact h.1
    · exact ihp p h.2 chunk h1

/-- Helper: the two shapes of the hanging wrap point of `draw_string`. -/
theorem withHanging_cases (locs : List Nat) (len : Nat) :
    withHanging locs len = locs ++ [len] ∨
    (locs.getLast? = some len ∧ withHanging locs len = locs) := by
  unfold withHanging
  by_cases hc : locs = [] ∨ locs.getLast? ≠ some len
  · rw [if_pos hc]
    left
    rfl
  · rw [if_neg hc]
    push_neg at hc
    right
    exact ⟨hc.2, rfl⟩

/-- C1 (counterexample): at the string "a   b" and width 2 the wrap
produces the segments "a   " and "b"; the first has raw length 4 > 2 even
though no whitespace-separated token of the input is longer than the width,
so no hard split of an over-long token is involved — the stated
"every segment's length is at most W" bound fails. -/
theorem wrap_width_claim_counterexample :
    drawStringChunks "a   b".toList 2 = ["a   ".toList, "b".toList] ∧
    (∀ t ∈ wordTokens "a   b".toList, t.length ≤ 2) ∧
    2 < ("a   ".toList).length := by
  refine ⟨by decide, by decide, by decide⟩

/-- C1 (amended): for every string and every width `W > 0`, the wrap points
of `__get_wrap_points` (with the hanging end point added by `draw_string`)
partition the string: concatenating all segments in order reconstructs the
original string, and every segment's length is at most `W` once trailing
whitespace (wrapped space runs, tabs, the newline of a hard newline break)
is discarded.  A single token longer than `W` is hard-split into segments
of exactly `W` characters, which the same bound covers. -/
theorem wrap_points_partition (s : List Char) (W : Nat) (hW : 0 < W) :
    (drawStringChunks s W).flatten = s ∧
    ∀ chunk ∈ drawStringChunks s W, rstripLen chunk ≤ W := by
  obtain ⟨hchain, hbound, hgaps⟩ := wrapAux_main W hW (s.length + 1) s (by omega)
  have hpts : getWrapPoints s W = wrapAux W (s.length + 1) s 0 [] := rfl
  unfold drawStringChunks
  rcases withHanging_cases (getWrapPoints s W) s.length with hcase | ⟨hlast, hcase⟩
  · rw [hcase, hpts]
    constructor
    · have h := chunksAux_flatten s (wrapAux W (s.length + 1) s 0 []) 0 hchain hbound
      rw [List.drop_zero] at h
      exact h
    · exact chunksAux_rstrip s W _ 0 hgaps
  · rw [hcase, hpts]
    rw [hpts] at hlast
    obtain ⟨pts0, hp⟩ := List.getLast?_eq_some_iff.mp hlast
    rw [hp] at hchain hbound hgaps ⊢
    have hchain0 : List.Chain' (· < ·) (0 :: pts0) := by
      rw [show (0 :: (pts0 ++ [s.length])) = (0 :: pts0) ++ [s.length] from rfl] at hchain
      exact (List.chain'_append.mp hchain).1
    have hbound0 : ∀ x ∈ pts0, x ≤ s.length :=
      fun x hx => hbound x (List.mem_append.mpr (Or.inl hx))
    have hgaps0 := gapsOK_drop_last s W pts0 0 hgaps
    constructor
    · have h := chunksAux_flatten s pts0 0 hchain0 hbound0
      rw [List.drop_zero] at h
      exact h
    · exact chunksAux_rstrip s W pts0 0 hgaps0

/-- C1 witness: the amended theorem applied at "hello world" with width 5:
the segments rejoin to the original string and each fits in width 5 after
trailing blanks. -/
theorem wrap_points_partition_witness :
    (drawStringChunks "hello world".toList 5).flatten = "hello world".toList ∧
    ∀ chunk ∈ drawStringChunks "hello world".toList 5, rstripLen chunk ≤ 5 :=
  wrap_points_partition "hello world".toList 5 (by decide)
